import Mathlib

/-!
Verification of the TrendLab GPU sweep engine core (`scripts/gpu_sweep/`):
the position/fill simulator, the metrics engine, the EMA kernel recurrence,
the indicator dependency graph with its topological sort, the batched
indicator cache, and the batched signal dispatcher.

Machine `float32` arithmetic is modelled by exact rationals: the claims
checked here concern formulas, state-machine transitions and cache logic,
not rounding.  Batched GPU arrays are modelled row-wise: every row (one
strategy configuration) of a batched kernel is an independent sequential
pass over bars, so one-row models are faithful to the batched code.
-/

namespace TrendLab

/-! ## Position scan and fill simulator (`position_scan.py`) -/

/-- Per-configuration state of `position_scan_with_fills_gpu`: position flag
(`int8`: 0 = flat, 1 = long), cash, and held quantity. -/
structure SimState where
  pos : Int
  cash : ℚ
  qty : ℚ
deriving DecidableEq

/-- Starting state of `position_scan_with_fills_gpu`: flat, no shares, and the
hardcoded starting cash `cp.full(..., 100000.0)`; the simulator takes no
initial-cash parameter. -/
def simInit : SimState := { pos := 0, cash := 100000, qty := 0 }

/-- Fee multiplier `fee_mult = fees_bps / 10000.0`. -/
def feeMult (feesBps : ℚ) : ℚ := feesBps / 10000

/-- One bar of `position_scan_with_fills_gpu`: at bar `t` the previous bar's
signals `pe`/`px` are evaluated against the previous bar's state `s`, and a
fill executes at bar `t`'s open `o` — the entry block first, then the exit
block (which reads the held quantity after the entry block, as the source
does); the two conditions are mutually exclusive since `s.pos` is a single
value. -/
def simStep (feesBps qpt : ℚ) (s : SimState) (pe px : Bool) (o : ℚ) : SimState :=
  let s1 := if s.pos = 0 ∧ pe then
      { pos := 1, cash := s.cash - qpt * o - qpt * o * feeMult feesBps, qty := qpt }
    else s
  if s.pos = 1 ∧ px then
    { pos := 0, cash := s1.cash + s1.qty * o - s1.qty * o * feeMult feesBps, qty := 0 }
  else s1

/-- State after bar `t` of `position_scan_with_fills_gpu`: the loop
`for t in range(1, num_bars)` reads the signals frozen at bar `t-1` and fills
at bar `t`'s open. -/
def simScan (feesBps qpt : ℚ) (en exS : List Bool) (op : List ℚ) : ℕ → SimState
  | 0 => simInit
  | t + 1 => simStep feesBps qpt (simScan feesBps qpt en exS op t)
      (en.getD t false) (exS.getD t false) (op.getD (t + 1) 0)

/-- `entry_bars[:, t]` of `position_scan_with_fills_gpu`: true when an entry
fill occurred at bar `t` (never at bar 0). -/
def entryFillB (feesBps qpt : ℚ) (en exS : List Bool) (op : List ℚ) : ℕ → Bool
  | 0 => false
  | t + 1 => decide ((simScan feesBps qpt en exS op t).pos = 0) && en.getD t false

/-- `exit_bars[:, t]` of `position_scan_with_fills_gpu`: true when an exit
fill occurred at bar `t` (never at bar 0). -/
def exitFillB (feesBps qpt : ℚ) (en exS : List Bool) (op : List ℚ) : ℕ → Bool
  | 0 => false
  | t + 1 => decide ((simScan feesBps qpt en exS op t).pos = 1) && exS.getD t false

/-- `equity[:, t] = cash[:, t] + position_qty[:, t] * close_prices[:, t]`
(at bar 0 the source sets `equity = cash`, which coincides since the held
quantity is 0). -/
def equityAt (feesBps qpt : ℚ) (en exS : List Bool) (op cl : List ℚ) (t : ℕ) : ℚ :=
  (simScan feesBps qpt en exS op t).cash +
    (simScan feesBps qpt en exS op t).qty * cl.getD t 0

/-- The equity curve as produced inside `engine._run_strategy_batch`: the
engine receives the configured `initial_cash` but forwards only `fees_bps`
and `qty_per_trade` to `position_scan_with_fills_gpu` (which has no
initial-cash parameter), so `initialCash` is unused here exactly as in the
source; the configured value reaches only the metrics stage. -/
def runBatchEquity (initialCash feesBps qpt : ℚ) (en exS : List Bool)
    (op cl : List ℚ) (t : ℕ) : ℚ :=
  equityAt feesBps qpt en exS op cl t

/-- `position_scan_gpu`: position state from signals alone, with the source's
`int8` arithmetic `prev + enter - exit`. -/
def posScan (en exS : List Bool) : ℕ → Int
  | 0 => 0
  | t + 1 =>
    let p := posScan en exS t
    p + (if p = 0 ∧ en.getD t false then 1 else 0)
      - (if p = 1 ∧ exS.getD t false then 1 else 0)

/-! ## Metrics engine (`metrics.py`) -/

/-- Guarded previous-equity denominator used by `compute_returns_gpu` and
`max_drawdown_gpu` in `metrics.py`: `cp.where(cp.abs(x) < 1e-10, 1e-10, x)`. -/
def safeDenom (x : ℚ) : ℚ := if |x| < 1 / 10 ^ 10 then 1 / 10 ^ 10 else x

/-- Per-bar return `r[t]` of `metrics.compute_returns_gpu` (the version the
metrics engine uses): `equity[t+1] - equity[t]` over the guarded previous
equity.  The guard makes the denominator nonzero, so `cp.nan_to_num` is the
identity in exact arithmetic. -/
def retAt (e : List ℚ) (t : ℕ) : ℚ :=
  (e.getD (t + 1) 0 - e.getD t 0) / safeDenom (e.getD t 0)

/-- The full returns row `compute_returns_gpu(equity)`, length `num_bars - 1`. -/
def returnsList (e : List ℚ) : List ℚ := (List.range (e.length - 1)).map (retAt e)

/-- The per-bar return as the spec sentence states it:
`(equity[t]-equity[t-1]) / max(|equity[t-1]|, eps)`.  Written from the spec's
words, for comparison with the source formula `retAt`. -/
def retSpecAt (e : List ℚ) (t : ℕ) : ℚ :=
  (e.getD (t + 1) 0 - e.getD t 0) / max |e.getD t 0| (1 / 10 ^ 10)

/-- Population mean (`cp.sum(returns) / n`). -/
def popMean (l : List ℚ) : ℚ := l.sum / l.length

/-- Population variance (`cp.sum((r - mean)^2) / n`, divisor `n` not `n-1`). -/
def popVar (l : List ℚ) : ℚ := ((l.map (fun x => (x - popMean l) ^ 2)).sum) / l.length

/-- `sharpe_gpu`, with the floating square root abstracted as a parameter
`sq` (the claims proved below need only `sq 0 = 0`, true of float `sqrt`):
returns 0 when fewer than two bars, and 0 when the population standard
deviation is 0 (`cp.where(std_ret == 0, 0.0, sharpe)`). -/
def sharpe (sq : ℚ → ℚ) (e : List ℚ) : ℚ :=
  if e.length < 2 then 0
  else
    let r := returnsList e
    let std := sq (popVar r)
    if std = 0 then 0 else popMean r * 252 / (std * sq 252 + 1 / 10 ^ 10)

/-- Downside variance of `sortino_gpu`: square only the negative returns
(`cp.where(returns < 0, returns, 0.0)`), divisor `n`. -/
def downsideVar (l : List ℚ) : ℚ :=
  ((l.map (fun x => (if x < 0 then x else 0) ^ 2)).sum) / l.length

/-- `sortino_gpu`, square root abstracted as for `sharpe`. -/
def sortino (sq : ℚ → ℚ) (e : List ℚ) : ℚ :=
  if e.length < 2 then 0
  else
    let r := returnsList e
    let dev := sq (downsideVar r)
    if dev = 0 then 0 else popMean r * 252 / (dev * sq 252 + 1 / 10 ^ 10)

/-- Running maximum of equity up to and including bar `t`
(`_running_max_gpu` computes exactly this prefix maximum by doubling). -/
def runPeak (e : List ℚ) (t : ℕ) : ℚ := (e.take (t + 1)).foldl max (e.getD 0 0)

/-- Row maximum (`cp.max(..., axis=1)`) of a nonempty per-bar array. -/
def rowMax (l : List ℚ) : ℚ := l.foldl max (l.getD 0 0)

/-- `max_drawdown_gpu`: max over bars of
`(running_peak - equity) / safeDenom(running_peak)`; 0 for an empty curve. -/
def maxDrawdown (e : List ℚ) : ℚ :=
  if e.length = 0 then 0
  else rowMax ((List.range e.length).map
    (fun t => (runPeak e t - e.getD t 0) / safeDenom (runPeak e t)))

/-- `calmar_gpu`: `CAGR / maxDrawdown` where the drawdown is positive, else 0
(`cp.where(max_dd > 0, cagr_vals / max_dd, 0.0)`).  The CAGR value (a float
power computed by `cagr_gpu`) is a parameter; it is irrelevant when the
drawdown is 0. -/
def calmar (cagrVal : ℚ) (e : List ℚ) : ℚ :=
  if maxDrawdown e > 0 then cagrVal / maxDrawdown e else 0

/-! ## EMA kernel (`kernels/ema.py`) -/

/-- Seed of the EMA recurrence in the `ema_kernel` CUDA source: simple mean
of the first `w` closes, placed at bar `w - 1`. -/
def emaSeed (close : List ℚ) (w : ℕ) : ℚ := (close.take w).sum / w

/-- Iterated EMA update `ema = close[w+i]*k + ema*(1-k)` starting from the
seed: `emaIter close w k j` is the EMA value at bar `w - 1 + j`. -/
def emaIter (close : List ℚ) (w : ℕ) (k : ℚ) : ℕ → ℚ
  | 0 => emaSeed close w
  | i + 1 => close.getD (w + i) 0 * k + emaIter close w k i * (1 - k)

/-- `ema_kernel` output at bar `t`: `none` is the NaN sentinel both for the
warm-up bars (`i < window - 1`) and for `num_bars < window`; otherwise the
recurrence value with `k = 2/(window+1)`. -/
def emaAt (close : List ℚ) (w t : ℕ) : Option ℚ :=
  if close.length < w ∨ t + 1 < w then none
  else some (emaIter close w (2 / ((w : ℚ) + 1)) (t - (w - 1)))

/-! ## Indicator dependency graph (`indicator_graph.py`) -/

/-- The closed enumeration of cacheable indicator kinds (`IndicatorType`). -/
inductive IndicatorType where
  | SMA | EMA
  | ROLLING_MAX | ROLLING_MIN | ROLLING_MAX_HIGH | ROLLING_MIN_LOW
  | DONCHIAN_UPPER | DONCHIAN_LOWER
  | TRUE_RANGE | ATR_SMA | ATR_WILDER
  | SUPERTREND | SUPERTREND_UPPER | SUPERTREND_LOWER | SUPERTREND_DIRECTION
  | BOLLINGER_MIDDLE | BOLLINGER_UPPER | BOLLINGER_LOWER | BOLLINGER_BANDWIDTH
  | ROLLING_STD | RSI
  | MACD_LINE | MACD_SIGNAL | MACD_HISTOGRAM
  | AROON_UP | AROON_DOWN | AROON_OSCILLATOR
  | KELTNER_MIDDLE | KELTNER_UPPER | KELTNER_LOWER
  | STOCHASTIC_K | STOCHASTIC_D
  | DMI_PLUS | DMI_MINUS | ADX
deriving DecidableEq

/-- `IndicatorSpec`: the hashable identifier `(type, params)`; float
multipliers are stored as integers scaled by 100, so params are integers. -/
structure IndicatorSpec where
  type : IndicatorType
  params : List Int
deriving DecidableEq

/-- `IndicatorSpec.dependencies`: the static dependency edges, computed from
the identifier's own params.  Python reads `params[0]`, `params[1]`, … and
raises on a too-short tuple; here the reads default
(`s.params.getD i 0`) and the well-formedness predicate `wfSpec` restricts
claims to arity-correct identifiers, on which the two behaviours agree. -/
def dependencies (s : IndicatorSpec) : List IndicatorSpec :=
  match s.type with
  | .ATR_SMA => [⟨.TRUE_RANGE, []⟩]
  | .ATR_WILDER => [⟨.TRUE_RANGE, []⟩]
  | .SUPERTREND => [⟨.ATR_WILDER, [s.params.getD 0 0]⟩]
  | .DONCHIAN_UPPER => [⟨.ROLLING_MAX_HIGH, [s.params.getD 0 0]⟩]
  | .DONCHIAN_LOWER => [⟨.ROLLING_MIN_LOW, [s.params.getD 0 0]⟩]
  | .BOLLINGER_MIDDLE => [⟨.SMA, [s.params.getD 0 0]⟩]
  | .BOLLINGER_UPPER =>
      [⟨.BOLLINGER_MIDDLE, [s.params.getD 0 0]⟩, ⟨.ROLLING_STD, [s.params.getD 0 0]⟩]
  | .BOLLINGER_LOWER =>
      [⟨.BOLLINGER_MIDDLE, [s.params.getD 0 0]⟩, ⟨.ROLLING_STD, [s.params.getD 0 0]⟩]
  | .MACD_LINE => [⟨.EMA, [s.params.getD 0 0]⟩, ⟨.EMA, [s.params.getD 1 0]⟩]
  | .MACD_SIGNAL => [⟨.MACD_LINE, [s.params.getD 0 0, s.params.getD 1 0]⟩]
  | .MACD_HISTOGRAM =>
      [⟨.MACD_LINE, [s.params.getD 0 0, s.params.getD 1 0]⟩,
       ⟨.MACD_SIGNAL, [s.params.getD 0 0, s.params.getD 1 0, s.params.getD 2 0]⟩]
  | .KELTNER_MIDDLE => [⟨.EMA, [s.params.getD 0 0]⟩]
  | .KELTNER_UPPER =>
      [⟨.KELTNER_MIDDLE, [s.params.getD 0 0]⟩, ⟨.ATR_WILDER, [s.params.getD 1 0]⟩]
  | .KELTNER_LOWER =>
      [⟨.KELTNER_MIDDLE, [s.params.getD 0 0]⟩, ⟨.ATR_WILDER, [s.params.getD 1 0]⟩]
  | .STOCHASTIC_D => [⟨.STOCHASTIC_K, [s.params.getD 0 0]⟩]
  | .AROON_OSCILLATOR =>
      [⟨.AROON_UP, [s.params.getD 0 0]⟩, ⟨.AROON_DOWN, [s.params.getD 0 0]⟩]
  | .ADX => [⟨.DMI_PLUS, [s.params.getD 0 0]⟩, ⟨.DMI_MINUS, [s.params.getD 0 0]⟩]
  | _ => []

/-- Arity correctness of an identifier's params, as the Python code consumes
them (`params[i]` indexing and exact tuple unpacking). -/
def wfSpec (s : IndicatorSpec) : Bool :=
  match s.type with
  | .TRUE_RANGE => s.params.length == 0
  | .MACD_SIGNAL => s.params.length == 3
  | .MACD_HISTOGRAM => s.params.length == 3
  | .STOCHASTIC_D => s.params.length == 2
  | .ADX => s.params.length == 2
  | .MACD_LINE => decide (2 ≤ s.params.length)
  | .KELTNER_UPPER => decide (2 ≤ s.params.length)
  | .KELTNER_LOWER => decide (2 ≤ s.params.length)
  | .SUPERTREND => decide (2 ≤ s.params.length)
  | .SUPERTREND_UPPER => decide (2 ≤ s.params.length)
  | .SUPERTREND_LOWER => decide (2 ≤ s.params.length)
  | .SUPERTREND_DIRECTION => decide (2 ≤ s.params.length)
  | _ => decide (1 ≤ s.params.length)

/-- Stratification of the fixed edge table: every declared dependency has
strictly smaller rank, which is what makes the table acyclic by
construction. -/
def rank (t : IndicatorType) : ℕ :=
  match t with
  | .ATR_SMA | .ATR_WILDER | .DONCHIAN_UPPER | .DONCHIAN_LOWER
  | .BOLLINGER_MIDDLE | .MACD_LINE | .KELTNER_MIDDLE | .STOCHASTIC_D
  | .AROON_OSCILLATOR | .ADX => 1
  | .SUPERTREND | .BOLLINGER_UPPER | .BOLLINGER_LOWER | .MACD_SIGNAL
  | .KELTNER_UPPER | .KELTNER_LOWER => 2
  | .MACD_HISTOGRAM => 3
  | _ => 0

/-- Termination weight of one spec in the expansion queue. -/
def specWeight (s : IndicatorSpec) : ℕ := 3 ^ rank s.type

/-- Termination weight of a whole queue. -/
def phi (l : List IndicatorSpec) : ℕ := (l.map specWeight).sum

/-- The inner loop of `expand_dependencies`: add each dependency that is not
yet in the result set, returning the grown result and the newly added
elements (which Python appends to the work queue). -/
def processDeps (result : List IndicatorSpec) :
    List IndicatorSpec → List IndicatorSpec × List IndicatorSpec
  | [] => (result, [])
  | d :: ds =>
    if d ∈ result then processDeps result ds
    else
      let p := processDeps (result ++ [d]) ds
      (p.1, d :: p.2)

/-- The worklist loop of `expand_dependencies`: Python's `queue.pop()`
removes the last element.  The `while queue` loop is given explicit fuel;
`phi` strictly decreases each iteration, so the fuel chosen in
`expandDependencies` is provably sufficient. -/
def expandLoop : ℕ → List IndicatorSpec → List IndicatorSpec → List IndicatorSpec
  | _, result, [] => result
  | 0, result, _ :: _ => result
  | fuel + 1, result, x :: xs =>
    let s := (x :: xs).getLast (List.cons_ne_nil x xs)
    let rest := (x :: xs).dropLast
    let p := processDeps result (dependencies s)
    expandLoop fuel p.1 (rest ++ p.2)

/-- `expand_dependencies`: transitive closure of the requested set under the
dependency edges. -/
def expandDependencies (specs : List IndicatorSpec) : List IndicatorSpec :=
  expandLoop (phi specs + 1) specs specs

/-- Functional update used for `in_degree[spec] += 1`. -/
def inDegInc (f : IndicatorSpec → Int) (k : IndicatorSpec) : IndicatorSpec → Int :=
  fun v => if v = k then f v + 1 else f v

/-- Functional update used for `dependents[dep].append(spec)`. -/
def depAppend (g : IndicatorSpec → List IndicatorSpec) (k v : IndicatorSpec) :
    IndicatorSpec → List IndicatorSpec :=
  fun u => if u = k then g u ++ [v] else g u

/-- Build the `in_degree` and `dependents` maps of `topological_sort`: for
every spec and each of its dependencies inside the node set, count one
incoming edge on the spec and record the spec as a dependent of the
dependency. -/
def buildEdges (all : List IndicatorSpec) :
    (IndicatorSpec → Int) × (IndicatorSpec → List IndicatorSpec) :=
  all.foldl
    (fun st spec =>
      (dependencies spec).foldl
        (fun st2 dep =>
          if dep ∈ all then (inDegInc st2.1 spec, depAppend st2.2 dep spec) else st2)
        st)
    (fun _ => 0, fun _ => [])

/-- Process the dependents of a popped node: decrement each one's in-degree
and collect, in order, those that reach exactly zero (Python appends them to
the queue). -/
def decAll (inDeg : IndicatorSpec → Int) :
    List IndicatorSpec → (IndicatorSpec → Int) × List IndicatorSpec
  | [] => (inDeg, [])
  | v :: vs =>
    let f := fun u => if u = v then inDeg u - 1 else inDeg u
    let p := decAll f vs
    if f v = 0 then (p.1, v :: p.2) else p

/-- The Kahn worklist loop of `topological_sort`: `queue.pop(0)` removes the
head.  The `while queue` loop is given explicit fuel; each iteration moves
one new node into the result, so `all.length + 1` fuel (chosen in
`topologicalSort`) is provably sufficient, and `none` is unreachable there. -/
def kahnLoop (depnts : IndicatorSpec → List IndicatorSpec) :
    ℕ → (IndicatorSpec → Int) → List IndicatorSpec → List IndicatorSpec →
      Option (List IndicatorSpec)
  | _, _, result, [] => some result
  | 0, _, _, _ :: _ => none
  | fuel + 1, inDeg, result, s :: rest =>
    let p := decAll inDeg (depnts s)
    kahnLoop depnts fuel p.1 (result ++ [s]) (rest ++ p.2)

/-- `topological_sort`: expand, build in-degrees and dependents, seed the
queue with zero-in-degree nodes, run Kahn's algorithm, and fail (`none`,
modelling the `ValueError`) when the emitted count does not match the
expanded set — the circular-dependency check. -/
def topologicalSort (specs : List IndicatorSpec) : Option (List IndicatorSpec) :=
  let all := expandDependencies specs
  let st := buildEdges all
  let q0 := all.filter (fun v => st.1 v == 0)
  match kahnLoop st.2 (all.length + 1) st.1 [] q0 with
  | none => none
  | some result => if result.length = all.length then some result else none

/-- Reachability along the dependency edges (reflexive-transitive):
`DepReach a b` means `b` is `a` or a transitive dependency of `a`. -/
inductive DepReach : IndicatorSpec → IndicatorSpec → Prop where
  | refl (a : IndicatorSpec) : DepReach a a
  | step {a b c : IndicatorSpec} : DepReach a b → c ∈ dependencies b → DepReach a c

/-! ## Batched indicator cache (`batched_cache.py`)

The cache is modelled at the level of its bookkeeping: entries map an
`IndicatorSpec` to a value tagged `(computation id, component)`, where each
underlying kernel/array computation receives a fresh id (Python allocates a
new array object per computation) and the component index distinguishes the
multiple outputs of one computation (supertrend: 0 = line, 1 = direction,
2 = upper, 3 = lower; DMI: 0 = plus, 1 = minus, 2 = adx).  The `log` field is
ghost instrumentation recording each `_compute` invocation, used to count
computations; it has no counterpart in the source and influences nothing.
A `get` on a missing key raises `KeyError` in Python; here fallible lookups
make `computeC` return `none`, aborting `ensure_computed` as the exception
would. -/

/-- Cache state: association entries (later writes shadow earlier ones, as
dict assignment overwrites), the next fresh computation id, and the ghost
log of `_compute` invocations. -/
structure Cache where
  entries : List (IndicatorSpec × (ℕ × ℕ))
  nextId : ℕ
  log : List IndicatorSpec
deriving DecidableEq

/-- The freshly constructed cache of one dataset (`self._cache = {}`). -/
def cacheInit : Cache := ⟨[], 0, []⟩

/-- Dictionary read `self._cache.get(spec)`. -/
def lookupC (c : Cache) (s : IndicatorSpec) : Option (ℕ × ℕ) :=
  (c.entries.find? (fun p => p.1 == s)).map (fun p => p.2)

/-- Key-membership test `spec in self._cache`. -/
def memC (c : Cache) (s : IndicatorSpec) : Bool := (lookupC c s).isSome

/-- Dictionary write `self._cache[spec] = v`. -/
def insertC (c : Cache) (s : IndicatorSpec) (v : ℕ × ℕ) : Cache :=
  { c with entries := (s, v) :: c.entries }

/-- Ghost: record one `_compute` invocation. -/
def logC (c : Cache) (s : IndicatorSpec) : Cache := { c with log := c.log ++ [s] }

/-- Allocate a fresh computation id. -/
def freshC (c : Cache) : Cache × ℕ := ({ c with nextId := c.nextId + 1 }, c.nextId)

/-- One run of the supertrend kernel (`supertrend_kernel`): a single
computation produces the line and the three components; `_compute` caches
the direction, upper and lower components and returns the line (which the
caller may or may not cache). -/
def computeSupertrend (c : Cache) (ps : List Int) : Cache × (ℕ × ℕ) :=
  let f := freshC c
  let c1 := insertC (insertC (insertC f.1
      ⟨.SUPERTREND_DIRECTION, ps⟩ (f.2, 1))
      ⟨.SUPERTREND_UPPER, ps⟩ (f.2, 2))
      ⟨.SUPERTREND_LOWER, ps⟩ (f.2, 3)
  (c1, (f.2, 0))

/-- `BatchedIndicatorCache._compute`, at the bookkeeping level: dispatch on
the identifier kind; plain kinds run one fresh computation; `ATR_WILDER`
reuses or caches `TRUE_RANGE`; the supertrend kinds share one kernel run and
cache the components; `BOLLINGER_MIDDLE` returns a cached `SMA` value when
present; `KELTNER_MIDDLE` returns the cached `EMA` value; `DMI_PLUS` caches
`DMI_MINUS` as a side effect; `BOLLINGER_BANDWIDTH` is the unhandled kind
(`NotImplementedError`). -/
def computeC (c : Cache) (s : IndicatorSpec) : Option (Cache × (ℕ × ℕ)) :=
  let c0 := logC c s
  match s.type with
  | .SUPERTREND => some (computeSupertrend c0 s.params)
  | .SUPERTREND_DIRECTION =>
    if memC c0 ⟨.SUPERTREND, s.params⟩ then (lookupC c0 s).map (fun v => (c0, v))
    else
      let p := computeSupertrend (logC c0 ⟨.SUPERTREND, s.params⟩) s.params
      (lookupC p.1 s).map (fun v => (p.1, v))
  | .SUPERTREND_UPPER =>
    if memC c0 ⟨.SUPERTREND, s.params⟩ then (lookupC c0 s).map (fun v => (c0, v))
    else
      let p := computeSupertrend (logC c0 ⟨.SUPERTREND, s.params⟩) s.params
      (lookupC p.1 s).map (fun v => (p.1, v))
  | .SUPERTREND_LOWER =>
    if memC c0 ⟨.SUPERTREND, s.params⟩ then (lookupC c0 s).map (fun v => (c0, v))
    else
      let p := computeSupertrend (logC c0 ⟨.SUPERTREND, s.params⟩) s.params
      (lookupC p.1 s).map (fun v => (p.1, v))
  | .ATR_WILDER =>
    if memC c0 ⟨.TRUE_RANGE, []⟩ then
      let f := freshC c0
      some (f.1, (f.2, 0))
    else
      let f := freshC c0
      let f2 := freshC (insertC f.1 ⟨.TRUE_RANGE, []⟩ (f.2, 0))
      some (f2.1, (f2.2, 0))
  | .BOLLINGER_MIDDLE =>
    match lookupC c0 ⟨.SMA, [s.params.getD 0 0]⟩ with
    | some v => some (c0, v)
    | none =>
      let f := freshC c0
      some (f.1, (f.2, 0))
  | .BOLLINGER_UPPER =>
    (lookupC c0 ⟨.BOLLINGER_MIDDLE, [s.params.getD 0 0]⟩).bind (fun _ =>
      (lookupC c0 ⟨.ROLLING_STD, [s.params.getD 0 0]⟩).map (fun _ =>
        let f := freshC c0
        (f.1, (f.2, 0))))
  | .BOLLINGER_LOWER =>
    (lookupC c0 ⟨.BOLLINGER_MIDDLE, [s.params.getD 0 0]⟩).bind (fun _ =>
      (lookupC c0 ⟨.ROLLING_STD, [s.params.getD 0 0]⟩).map (fun _ =>
        let f := freshC c0
        (f.1, (f.2, 0))))
  | .MACD_LINE =>
    (lookupC c0 ⟨.EMA, [s.params.getD 0 0]⟩).bind (fun _ =>
      (lookupC c0 ⟨.EMA, [s.params.getD 1 0]⟩).map (fun _ =>
        let f := freshC c0
        (f.1, (f.2, 0))))
  | .MACD_SIGNAL =>
    (lookupC c0 ⟨.MACD_LINE, [s.params.getD 0 0, s.params.getD 1 0]⟩).map (fun _ =>
      let f := freshC c0
      (f.1, (f.2, 0)))
  | .MACD_HISTOGRAM =>
    (lookupC c0 ⟨.MACD_LINE, [s.params.getD 0 0, s.params.getD 1 0]⟩).bind (fun _ =>
      (lookupC c0 ⟨.MACD_SIGNAL,
          [s.params.getD 0 0, s.params.getD 1 0, s.params.getD 2 0]⟩).map (fun _ =>
        let f := freshC c0
        (f.1, (f.2, 0))))
  | .AROON_OSCILLATOR =>
    (lookupC c0 ⟨.AROON_UP, [s.params.getD 0 0]⟩).bind (fun _ =>
      (lookupC c0 ⟨.AROON_DOWN, [s.params.getD 0 0]⟩).map (fun _ =>
        let f := freshC c0
        (f.1, (f.2, 0))))
  | .KELTNER_MIDDLE =>
    (lookupC c0 ⟨.EMA, [s.params.getD 0 0]⟩).map (fun v => (c0, v))
  | .KELTNER_UPPER =>
    (lookupC c0 ⟨.KELTNER_MIDDLE, [s.params.getD 0 0]⟩).bind (fun _ =>
      (lookupC c0 ⟨.ATR_WILDER, [s.params.getD 1 0]⟩).map (fun _ =>
        let f := freshC c0
        (f.1, (f.2, 0))))
  | .KELTNER_LOWER =>
    (lookupC c0 ⟨.KELTNER_MIDDLE, [s.params.getD 0 0]⟩).bind (fun _ =>
      (lookupC c0 ⟨.ATR_WILDER, [s.params.getD 1 0]⟩).map (fun _ =>
        let f := freshC c0
        (f.1, (f.2, 0))))
  | .STOCHASTIC_D =>
    (lookupC c0 ⟨.STOCHASTIC_K, [s.params.getD 0 0]⟩).map (fun _ =>
      let f := freshC c0
      (f.1, (f.2, 0)))
  | .DMI_PLUS =>
    let f := freshC c0
    some (insertC f.1 ⟨.DMI_MINUS, [s.params.getD 0 0]⟩ (f.2, 1), (f.2, 0))
  | .DMI_MINUS =>
    match lookupC c0 s with
    | some v => some (c0, v)
    | none =>
      let f := freshC c0
      some (f.1, (f.2, 1))
  | .ADX =>
    let f := freshC c0
    some (f.1, (f.2, 2))
  | .BOLLINGER_BANDWIDTH => none
  | _ =>
    let f := freshC c0
    some (f.1, (f.2, 0))

/-- The per-spec loop of `ensure_computed`: compute and store each spec of
the sorted order that is not yet cached. -/
def ensureLoop (c : Cache) : List IndicatorSpec → Option Cache
  | [] => some c
  | s :: rest =>
    if memC c s then ensureLoop c rest
    else
      match computeC c s with
      | none => none
      | some p => ensureLoop (insertC p.1 s p.2) rest

/-- `BatchedIndicatorCache.ensure_computed`: expand, sort topologically,
then compute each not-yet-cached spec strictly in sorted order. -/
def ensureComputed (c : Cache) (specs : List IndicatorSpec) : Option Cache :=
  match topologicalSort specs with
  | none => none
  | some ordered => ensureLoop c ordered

/-- `BatchedIndicatorCache.get`: a pure lookup; a miss raises `KeyError`
(`none` here) and never computes anything. -/
def getC (c : Cache) (s : IndicatorSpec) : Option (ℕ × ℕ) := lookupC c s

/-- A sequence of `ensure_computed` calls against one cache instance. -/
def ensureSeq (c : Cache) : List (List IndicatorSpec) → Option Cache
  | [] => some c
  | specs :: more =>
    match ensureComputed c specs with
    | none => none
    | some c1 => ensureSeq c1 more

/-! ## Batched signal generation (`signal_batched.py`) -/

/-- The strategy families handled by `compute_signals_batched` (and by
`collect_strategy_indicators`). -/
def knownStrategyTypes : List String :=
  ["donchian", "ma_crossover", "supertrend", "fifty_two_week", "parabolic_sar",
   "bollinger", "rsi", "macd", "aroon", "tsmom", "keltner", "starc",
   "stochastic", "dmi_adx"]

/-- `collect_strategy_indicators`: the per-family accumulation over configs
is abstracted as `collectImpl`; a family name outside the known set falls
through every branch and returns the empty spec set. -/
def collectStrategyIndicators {Config : Type}
    (collectImpl : String → List Config → List IndicatorSpec)
    (stype : String) (configs : List Config) : List IndicatorSpec :=
  if stype ∈ knownStrategyTypes then collectImpl stype configs else []

/-- `compute_signals_batched`: collect the needed specs, `ensure_computed`
them, then dispatch to the family's generator (abstracted as `signalImpl`);
an unknown family returns all-false entry/exit matrices of shape
`[numConfigs, numBars]`. -/
def computeSignalsBatched {Config : Type}
    (collectImpl : String → List Config → List IndicatorSpec)
    (signalImpl : String → List Config → Cache → List (List Bool) × List (List Bool))
    (stype : String) (configs : List Config) (cache : Cache) (numBars : ℕ) :
    Option (Cache × (List (List Bool) × List (List Bool))) :=
  let specs := collectStrategyIndicators collectImpl stype configs
  match ensureComputed cache specs with
  | none => none
  | some c1 =>
    if stype ∈ knownStrategyTypes then some (c1, signalImpl stype configs c1)
    else
      some (c1, (List.replicate configs.length (List.replicate numBars false),
                 List.replicate configs.length (List.replicate numBars false)))

/-! ## Helper lemmas: position simulator -/

/-- The position flag of the fill simulator is always 0 or 1. -/
theorem simScan_pos_cases (feesBps qpt : ℚ) (en exS : List Bool) (op : List ℚ) :
    ∀ t, (simScan feesBps qpt en exS op t).pos = 0 ∨
      (simScan feesBps qpt en exS op t).pos = 1 := by
  intro t
  induction t with
  | zero => left; rfl
  | succ t ih =>
    simp only [simScan, simStep]
    rcases ih with h | h <;> split_ifs with h1 h2 <;> simp_all

/-- The state at bar `t` depends only on the signals strictly before `t`
(and the opens up to `t`). -/
theorem simScan_congr_signals (feesBps qpt : ℚ) (en exS en2 ex2 : List Bool)
    (op : List ℚ) (t : ℕ)
    (hen : ∀ i, i < t → en2.getD i false = en.getD i false)
    (hex : ∀ i, i < t → ex2.getD i false = exS.getD i false) :
    simScan feesBps qpt en2 ex2 op t = simScan feesBps qpt en exS op t := by
  induction t with
  | zero => rfl
  | succ t ih =>
    simp only [simScan]
    rw [ih (fun i hi => hen i (Nat.lt_succ_of_lt hi))
        (fun i hi => hex i (Nat.lt_succ_of_lt hi)),
      hen t (Nat.lt_succ_self t), hex t (Nat.lt_succ_self t)]

/-- If the simulator is long at bar `a` and flat at bar `b`, an exit fill
occurred at some bar in `(a, b]`. -/
theorem simScan_exit_between (feesBps qpt : ℚ) (en exS : List Bool) (op : List ℚ)
    (a : ℕ) : ∀ b, a ≤ b → (simScan feesBps qpt en exS op a).pos = 1 →
      (simScan feesBps qpt en exS op b).pos = 0 →
      ∃ u, a < u ∧ u ≤ b ∧ exitFillB feesBps qpt en exS op u = true := by
  intro b
  induction b with
  | zero =>
    intro hab h1 h0
    have : a = 0 := Nat.le_zero.mp hab
    rw [this] at h1; rw [h1] at h0; exact absurd h0 (by norm_num)
  | succ b ih =>
    intro hab h1 h0
    have hne : a ≠ b + 1 := by
      intro h
      rw [h] at h1
      rw [h1] at h0
      exact absurd h0 (by norm_num)
    have hab' : a ≤ b := Nat.lt_succ_iff.mp (Nat.lt_of_le_of_ne hab hne)
    rcases simScan_pos_cases feesBps qpt en exS op b with hb | hb
    · obtain ⟨u, hu1, hu2, hu3⟩ := ih hab' h1 hb
      exact ⟨u, hu1, Nat.le_succ_of_le hu2, hu3⟩
    · have hx : exS.getD b false = true := by
        by_contra hx
        simp only [Bool.not_eq_true, List.getD_eq_getElem?_getD] at hx
        simp [simScan, simStep, hb, hx] at h0
      rw [List.getD_eq_getElem?_getD] at hx
      exact ⟨b + 1, Nat.lt_succ_of_le hab', Nat.le_refl _, by simp [exitFillB, hb, hx]⟩

/-- `position_scan_gpu` and the fill simulator produce the same position
trajectory. -/
theorem posScan_eq_simScan_pos (feesBps qpt : ℚ) (en exS : List Bool)
    (op : List ℚ) : ∀ t, posScan en exS t = (simScan feesBps qpt en exS op t).pos := by
  intro t
  induction t with
  | zero => rfl
  | succ t ih =>
    rcases simScan_pos_cases feesBps qpt en exS op t with h | h <;>
      simp only [posScan, simScan, simStep, ih, h] <;>
      rcases hen : en.getD t false with _ | _ <;>
      rcases hex : exS.getD t false with _ | _ <;>
      split_ifs with h1 h2 <;> simp_all

/-! ## Claim theorems: position simulator -/

/-- C1: a fill at bar `t+1` is driven exclusively by the signals at bar `t`
and executes at bar `t+1`'s open: an entry transition debits cash by
`qty * open * (1 + feeRate)`, an exit transition credits cash by
`qty * open * (1 - feeRate)`, any other configuration leaves the state
unchanged, and the state at a bar never depends on that same bar's signal. -/
theorem fills_use_prev_signal_at_current_open
    (feesBps qpt : ℚ) (en exS : List Bool) (op : List ℚ) (t : ℕ) :
    (((simScan feesBps qpt en exS op t).pos = 0 ∧ en.getD t false = true) →
      (simScan feesBps qpt en exS op (t + 1)).cash
          = (simScan feesBps qpt en exS op t).cash
            - qpt * op.getD (t + 1) 0 * (1 + feeMult feesBps) ∧
        (simScan feesBps qpt en exS op (t + 1)).qty = qpt ∧
        (simScan feesBps qpt en exS op (t + 1)).pos = 1) ∧
    (((simScan feesBps qpt en exS op t).pos = 1 ∧ exS.getD t false = true) →
      (simScan feesBps qpt en exS op (t + 1)).cash
          = (simScan feesBps qpt en exS op t).cash
            + (simScan feesBps qpt en exS op t).qty * op.getD (t + 1) 0
              * (1 - feeMult feesBps) ∧
        (simScan feesBps qpt en exS op (t + 1)).qty = 0 ∧
        (simScan feesBps qpt en exS op (t + 1)).pos = 0) ∧
    (¬ ((simScan feesBps qpt en exS op t).pos = 0 ∧ en.getD t false = true) →
      ¬ ((simScan feesBps qpt en exS op t).pos = 1 ∧ exS.getD t false = true) →
      simScan feesBps qpt en exS op (t + 1) = simScan feesBps qpt en exS op t) ∧
    (∀ en2 ex2 : List Bool,
      (∀ i, i < t → en2.getD i false = en.getD i false) →
      (∀ i, i < t → ex2.getD i false = exS.getD i false) →
      simScan feesBps qpt en2 ex2 op t = simScan feesBps qpt en exS op t) := by
  refine ⟨?_, ?_, ?_, fun en2 ex2 h1 h2 => simScan_congr_signals _ _ _ _ _ _ _ _ h1 h2⟩
  · rintro ⟨hp, he⟩
    simp only [simScan, simStep]
    rw [if_neg (by simp [hp]), if_pos ⟨hp, he⟩]
    refine ⟨by ring, rfl, rfl⟩
  · rintro ⟨hp, hx⟩
    simp only [simScan, simStep]
    rw [if_pos ⟨hp, hx⟩, if_neg (by simp [hp])]
    refine ⟨by ring, rfl, rfl⟩
  · intro h1 h2
    simp only [simScan, simStep]
    rw [if_neg (by simpa using h2), if_neg (by simpa using h1)]

/-- Witness for C1 at a concrete input: the entry hypothesis holds at bar 0
of `en = [true]`, and the fill at bar 1 debits `1 * 20 * (1 + 0)`. -/
theorem fills_use_prev_signal_at_current_open_witness :
    ((simScan 0 1 [true] [false] [10, 20] 0).pos = 0 ∧
      [true].getD 0 false = true) ∧
    (simScan 0 1 [true] [false] [10, 20] 1).cash
        = (simScan 0 1 [true] [false] [10, 20] 0).cash
          - 1 * ([10, 20] : List ℚ).getD 1 0 * (1 + feeMult 0) :=
  ⟨⟨by decide, by decide⟩,
    ((fills_use_prev_signal_at_current_open 0 1 [true] [false] [10, 20] 0).1
      ⟨by decide, by decide⟩).1⟩

/-- C2: the position trajectory starts flat, only takes the values 0 and 1
(for both `position_scan_gpu` and the fill simulator, which agree), an entry
fill at bar `t` requires the bar-`t-1` position to be flat and an exit fill
requires it to be long, and between two entry fills there is always an exit
fill. -/
theorem position_state_machine_sound
    (feesBps qpt : ℚ) (en exS : List Bool) (op : List ℚ) :
    posScan en exS 0 = 0 ∧
    (∀ t, posScan en exS t = 0 ∨ posScan en exS t = 1) ∧
    (∀ t, posScan en exS t = (simScan feesBps qpt en exS op t).pos) ∧
    (∀ t, entryFillB feesBps qpt en exS op t = true →
      1 ≤ t ∧ (simScan feesBps qpt en exS op (t - 1)).pos = 0) ∧
    (∀ t, exitFillB feesBps qpt en exS op t = true →
      1 ≤ t ∧ (simScan feesBps qpt en exS op (t - 1)).pos = 1) ∧
    (∀ t1 t2, t1 < t2 → entryFillB feesBps qpt en exS op t1 = true →
      entryFillB feesBps qpt en exS op t2 = true →
      ∃ u, t1 ≤ u ∧ u < t2 ∧ exitFillB feesBps qpt en exS op u = true) := by
  refine ⟨rfl,
    fun t => by rw [posScan_eq_simScan_pos feesBps qpt en exS op t]
                exact simScan_pos_cases feesBps qpt en exS op t,
    posScan_eq_simScan_pos feesBps qpt en exS op, ?_, ?_, ?_⟩
  · intro t h
    match t with
    | 0 => exact absurd h (by simp [entryFillB])
    | t + 1 =>
      simp only [entryFillB, Bool.and_eq_true, decide_eq_true_eq] at h
      exact ⟨Nat.le_add_left 1 t, h.1⟩
  · intro t h
    match t with
    | 0 => exact absurd h (by simp [exitFillB])
    | t + 1 =>
      simp only [exitFillB, Bool.and_eq_true, decide_eq_true_eq] at h
      exact ⟨Nat.le_add_left 1 t, h.1⟩
  · intro t1 t2 hlt h1 h2
    match t1, h1 with
    | t1 + 1, h1 =>
      match t2, h2 with
      | t2 + 1, h2 =>
        simp only [entryFillB, Bool.and_eq_true, decide_eq_true_eq] at h1 h2
        have hpos1 : (simScan feesBps qpt en exS op (t1 + 1)).pos = 1 := by
          simp only [simScan, simStep]
          rw [if_neg (by norm_num [h1.1]), if_pos ⟨h1.1, h1.2⟩]
        obtain ⟨u, hu1, hu2, hu3⟩ := simScan_exit_between feesBps qpt en exS op
          (t1 + 1) t2 (Nat.lt_succ_iff.mp hlt) hpos1 h2.1
        exact ⟨u, Nat.le_of_lt hu1, Nat.lt_succ_of_le hu2, hu3⟩

/-- Witness for C2 at concrete signals with two entry fills (bars 1 and 3)
separated by an exit fill (bar 2). -/
theorem position_state_machine_sound_witness :
    entryFillB 0 1 [true, false, true] [false, true, false] [1, 1, 1, 1] 1 = true ∧
    entryFillB 0 1 [true, false, true] [false, true, false] [1, 1, 1, 1] 3 = true ∧
    ∃ u, 1 ≤ u ∧ u < 3 ∧
      exitFillB 0 1 [true, false, true] [false, true, false] [1, 1, 1, 1] u = true :=
  ⟨by decide, by decide,
    (position_state_machine_sound 0 1 [true, false, true] [false, true, false]
      [1, 1, 1, 1]).2.2.2.2.2 1 3 (by decide) (by decide) (by decide)⟩

/-- C3 (code bug): no fill can occur at the first bar, but the first-bar
equity is the hardcoded 100000 for every configured initial cash — the
engine never forwards `initial_cash` to the simulator; in particular the
configured value 50000 is not honoured. -/
theorem first_bar_equity_is_hardcoded_cash :
    (∀ (initialCash feesBps qpt : ℚ) (en exS : List Bool) (op cl : List ℚ),
      runBatchEquity initialCash feesBps qpt en exS op cl 0 = 100000) ∧
    runBatchEquity 50000 10 100 [true] [false] [10, 11] [10, 11] 0 ≠ 50000 := by
  constructor
  · intro initialCash feesBps qpt en exS op cl
    simp [runBatchEquity, equityAt, simScan, simInit]
  · norm_num [runBatchEquity, equityAt, simScan, simInit]

/-! ## Claim theorems: returns formula -/

/-- Counterexample to C4 as stated: on the equity curve `[-1, 1]` the source
return is `2 / (-1) = -2`, while the spec formula
`(equity[t]-equity[t-1]) / max(|equity[t-1]|, eps)` gives `2`. -/
theorem returns_denominator_counterexample :
    retAt [-1, 1] 0 = -2 ∧ retSpecAt [-1, 1] 0 = 2 ∧
    retAt [-1, 1] 0 ≠ retSpecAt [-1, 1] 0 := by
  have h1 : retAt [-1, 1] 0 = -2 := by norm_num [retAt, safeDenom]
  have h2 : retSpecAt [-1, 1] 0 = 2 := by norm_num [retSpecAt]
  exact ⟨h1, h2, by rw [h1, h2]; norm_num⟩

/-- C4 (amended): the metrics-engine per-bar return matches the spec formula
`(equity[t]-equity[t-1]) / max(|equity[t-1]|, eps)` whenever the previous
equity is nonnegative; for negative previous equity of magnitude at least
`eps` the source divides by the signed value itself. -/
theorem returns_match_spec_formula_on_nonneg
    (e : List ℚ) (t : ℕ) (h : 0 ≤ e.getD t 0) : retAt e t = retSpecAt e t := by
  unfold retAt retSpecAt safeDenom
  rcases lt_or_le |e.getD t 0| (1 / 10 ^ 10) with hlt | hge
  · rw [if_pos hlt, max_eq_right (le_of_lt hlt)]
  · rw [if_neg (not_lt.mpr hge), max_eq_left hge, abs_of_nonneg h]

/-- Witness for the amended C4 at `equity = [1, 2]`, `t = 0`. -/
theorem returns_match_spec_formula_on_nonneg_witness :
    0 ≤ ([1, 2] : List ℚ).getD 0 0 ∧ retAt [1, 2] 0 = retSpecAt [1, 2] 0 :=
  ⟨by decide, returns_match_spec_formula_on_nonneg [1, 2] 0 (by decide)⟩

/-! ## Helper lemmas: metrics on constant curves -/

theorem getD_replicate_of_lt (c : ℚ) (n t : ℕ) (h : t < n) :
    (List.replicate n c).getD t 0 = c := by
  rw [List.getD_eq_getElem?_getD, List.getElem?_replicate, if_pos h]
  rfl

theorem returnsList_replicate (c : ℚ) (n : ℕ) :
    returnsList (List.replicate n c) = List.replicate (n - 1) 0 := by
  refine List.eq_replicate.mpr ⟨by simp [returnsList], ?_⟩
  intro b hb
  simp only [returnsList, List.mem_map, List.mem_range, List.length_replicate] at hb
  obtain ⟨t, ht, rfl⟩ := hb
  have h1 : t < n := by omega
  have h2 : t + 1 < n := by omega
  rw [retAt, getD_replicate_of_lt c n t h1, getD_replicate_of_lt c n (t + 1) h2]
  simp

theorem popMean_replicate_zero (m : ℕ) : popMean (List.replicate m 0) = 0 := by
  simp [popMean, List.sum_replicate]

theorem popVar_replicate_zero (m : ℕ) : popVar (List.replicate m 0) = 0 := by
  simp [popVar, popMean_replicate_zero, List.map_replicate, List.sum_replicate]

theorem downsideVar_replicate_zero (m : ℕ) :
    downsideVar (List.replicate m 0) = 0 := by
  simp [downsideVar, List.map_replicate, List.sum_replicate]

theorem foldl_max_self (c : ℚ) : ∀ m, (List.replicate m c).foldl max c = c
  | 0 => rfl
  | m + 1 => by
    rw [List.replicate_succ, List.foldl_cons, max_self]
    exact foldl_max_self c m

theorem runPeak_replicate (c : ℚ) (n t : ℕ) (h : 0 < n) :
    runPeak (List.replicate n c) t = c := by
  unfold runPeak
  rw [getD_replicate_of_lt c n 0 h, List.take_replicate]
  exact foldl_max_self c _

theorem maxDrawdown_replicate (c : ℚ) (n : ℕ) :
    maxDrawdown (List.replicate n c) = 0 := by
  rcases Nat.eq_zero_or_pos n with h | h
  · simp [maxDrawdown, h]
  · rw [maxDrawdown, if_neg (by simp; omega)]
    have hmap : (List.range (List.replicate n c).length).map
        (fun t => (runPeak (List.replicate n c) t - (List.replicate n c).getD t 0)
          / safeDenom (runPeak (List.replicate n c) t))
        = List.replicate n 0 := by
      refine List.eq_replicate.mpr ⟨by simp, ?_⟩
      intro b hb
      simp only [List.mem_map, List.mem_range, List.length_replicate] at hb
      obtain ⟨t, ht, rfl⟩ := hb
      rw [runPeak_replicate c n t h, getD_replicate_of_lt c n t ht]
      simp
    rw [hmap, rowMax, getD_replicate_of_lt 0 n 0 h]
    exact foldl_max_self 0 n

/-! ## Claim theorems: degenerate metrics and EMA -/

/-- C8: a constant equity curve yields Sharpe 0, Sortino 0, max drawdown 0
and Calmar 0 — defined fallbacks, and in exact arithmetic no non-finite
value arises (every guarded denominator is nonzero).  `sq` abstracts the
float square root; only `sq 0 = 0` is used. -/
theorem constant_equity_degenerate_metrics
    (sq : ℚ → ℚ) (h0 : sq 0 = 0) (c : ℚ) (n : ℕ) (cagrVal : ℚ) :
    sharpe sq (List.replicate n c) = 0 ∧
    sortino sq (List.replicate n c) = 0 ∧
    maxDrawdown (List.replicate n c) = 0 ∧
    calmar cagrVal (List.replicate n c) = 0 := by
  have hr := returnsList_replicate c n
  refine ⟨?_, ?_, maxDrawdown_replicate c n, ?_⟩
  · simp only [sharpe]
    split_ifs with h hstd
    · rfl
    · rfl
    · exact absurd (by rw [hr, popVar_replicate_zero]; exact h0) hstd
  · simp only [sortino]
    split_ifs with h hdev
    · rfl
    · rfl
    · exact absurd (by rw [hr, downsideVar_replicate_zero]; exact h0) hdev
  · rw [calmar, maxDrawdown_replicate c n]
    norm_num

/-- Witness for C8 on the concrete constant curve `[5, 5, 5]` with the
identity standing in for the square root (`id 0 = 0`). -/
theorem constant_equity_degenerate_metrics_witness :
    sharpe id (List.replicate 3 (5 : ℚ)) = 0 ∧
    sortino id (List.replicate 3 (5 : ℚ)) = 0 ∧
    maxDrawdown (List.replicate 3 (5 : ℚ)) = 0 ∧
    calmar 7 (List.replicate 3 (5 : ℚ)) = 0 :=
  constant_equity_degenerate_metrics id rfl 5 3 7

/-- C9: the EMA kernel seeds its recurrence at bar `window - 1` with the
simple mean of the first `window` closes, thereafter applies
`ema[t] = close[t]*k + ema[t-1]*(1-k)` with `k = 2/(window+1)`, leaves the
bars before the seed as the unknown sentinel, and on
`close = [1,2,3,4,5,6]`, `window = 3` yields unknown, unknown, 2.0, 3.0. -/
theorem ema_seed_and_recurrence
    (close : List ℚ) (w : ℕ) (h1 : 1 ≤ w) (h2 : w ≤ close.length) :
    (∀ t, t + 1 < w → emaAt close w t = none) ∧
    emaAt close w (w - 1) = some ((close.take w).sum / w) ∧
    (∀ t, w ≤ t →
      ∃ v, emaAt close w (t - 1) = some v ∧
        emaAt close w t
          = some (close.getD t 0 * (2 / ((w : ℚ) + 1))
              + v * (1 - 2 / ((w : ℚ) + 1)))) ∧
    (emaAt [1, 2, 3, 4, 5, 6] 3 0 = none ∧ emaAt [1, 2, 3, 4, 5, 6] 3 1 = none ∧
      emaAt [1, 2, 3, 4, 5, 6] 3 2 = some 2 ∧
      emaAt [1, 2, 3, 4, 5, 6] 3 3 = some 3) := by
  refine ⟨?_, ?_, ?_, ?_, ?_, ?_, ?_⟩
  · intro t ht
    rw [emaAt, if_pos (Or.inr ht)]
  · rw [emaAt, if_neg (by omega)]
    have he : w - 1 - (w - 1) = 0 := Nat.sub_self _
    rw [he]
    rfl
  · intro t ht
    refine ⟨emaIter close w (2 / ((w : ℚ) + 1)) (t - w), ?_, ?_⟩
    · rw [emaAt, if_neg (by omega)]
      have he : t - 1 - (w - 1) = t - w := by omega
      rw [he]
    · rw [emaAt, if_neg (by omega)]
      have he : t - (w - 1) = (t - w) + 1 := by omega
      rw [he]
      simp only [emaIter]
      have hw : w + (t - w) = t := by omega
      rw [hw]
  · rw [emaAt, if_pos (by norm_num)]
  · rw [emaAt, if_pos (by norm_num)]
  · rw [emaAt]
    norm_num [emaIter, emaSeed]
  · rw [emaAt]
    norm_num [emaIter, emaSeed]

/-- Witness for C9 at `close = [1,2,3,4,5,6]`, `window = 3`: the concrete
scenario values. -/
theorem ema_seed_and_recurrence_witness :
    emaAt [1, 2, 3, 4, 5, 6] 3 0 = none ∧ emaAt [1, 2, 3, 4, 5, 6] 3 1 = none ∧
    emaAt [1, 2, 3, 4, 5, 6] 3 2 = some 2 ∧ emaAt [1, 2, 3, 4, 5, 6] 3 3 = some 3 :=
  (ema_seed_and_recurrence [1, 2, 3, 4, 5, 6] 3 (by norm_num) (by norm_num)).2.2.2

/-! ## Helper lemmas: dependency graph expansion -/

theorem rank_dependencies {s d : IndicatorSpec} (hd : d ∈ dependencies s) :
    rank d.type < rank s.type := by
  rcases s with ⟨t, ps⟩
  cases t <;>
    simp only [dependencies, List.mem_cons, List.mem_singleton,
      List.not_mem_nil, or_false] at hd <;>
    first
      | (obtain rfl := hd; norm_num [rank])
      | (obtain rfl | rfl := hd <;> norm_num [rank])

theorem phi_append (a b : List IndicatorSpec) : phi (a ++ b) = phi a + phi b := by
  simp [phi]

theorem phi_cons (x : IndicatorSpec) (l : List IndicatorSpec) :
    phi (x :: l) = specWeight x + phi l := by
  simp [phi]

theorem specWeight_pos (s : IndicatorSpec) : 0 < specWeight s :=
  Nat.pos_pow_of_pos _ (by norm_num)

theorem phi_dependencies_lt (s : IndicatorSpec) : phi (dependencies s) < specWeight s := by
  rcases s with ⟨t, ps⟩
  cases t <;> simp [dependencies, phi, specWeight, rank]

theorem processDeps_eq (ds : List IndicatorSpec) :
    ∀ r, (processDeps r ds).1 = r ++ (processDeps r ds).2 := by
  induction ds with
  | nil => intro r; simp [processDeps]
  | cons d ds ih =>
    intro r
    simp only [processDeps]
    split_ifs with h
    · exact ih r
    · simp only []
      rw [ih (r ++ [d])]
      simp

theorem processDeps_snd_sub (ds : List IndicatorSpec) :
    ∀ r, ∀ x ∈ (processDeps r ds).2, x ∈ ds := by
  induction ds with
  | nil => intro r x hx; simp [processDeps] at hx
  | cons d ds ih =>
    intro r x hx
    simp only [processDeps] at hx
    split_ifs at hx with h
    · exact List.mem_cons_of_mem d (ih r x hx)
    · simp only [List.mem_cons] at hx
      rcases hx with rfl | hx
      · exact List.mem_cons_self x ds
      · exact List.mem_cons_of_mem d (ih (r ++ [d]) x hx)

theorem phi_sublist_le (ds : List IndicatorSpec) :
    ∀ r, phi (processDeps r ds).2 ≤ phi ds := by
  induction ds with
  | nil => intro r; simp [processDeps, phi]
  | cons d ds ih =>
    intro r
    simp only [processDeps]
    split_ifs with h
    · calc phi (processDeps r ds).2 ≤ phi ds := ih r
        _ ≤ phi (d :: ds) := by rw [phi_cons]; omega
    · simp only []
      rw [phi_cons, phi_cons]
      have := ih (r ++ [d])
      omega

theorem processDeps_mem_fst (ds : List IndicatorSpec) :
    ∀ r, ∀ d ∈ ds, d ∈ (processDeps r ds).1 := by
  induction ds with
  | nil => intro r d hd; simp at hd
  | cons x ds ih =>
    intro r d hd
    simp only [processDeps]
    split_ifs with h
    · rcases List.mem_cons.mp hd with rfl | hd
      · rw [processDeps_eq]; exact List.mem_append_left _ h
      · exact ih r d hd
    · simp only []
      rcases List.mem_cons.mp hd with rfl | hd
      · rw [processDeps_eq]
        exact List.mem_append_left _ (by simp)
      · exact ih (r ++ [x]) d hd

theorem processDeps_sup (ds : List IndicatorSpec) :
    ∀ r, ∀ x ∈ r, x ∈ (processDeps r ds).1 := by
  intro r x hx
  rw [processDeps_eq]
  exact List.mem_append_left _ hx

theorem processDeps_nodup (ds : List IndicatorSpec) :
    ∀ r, r.Nodup → (processDeps r ds).1.Nodup := by
  induction ds with
  | nil => intro r h; simpa [processDeps] using h
  | cons d ds ih =>
    intro r h
    simp only [processDeps]
    split_ifs with hd
    · exact ih r h
    · simp only []
      refine ih (r ++ [d]) ?_
      rw [List.nodup_append]
      refine ⟨h, List.nodup_singleton d, ?_⟩
      intro a ha hb
      simp only [List.mem_singleton] at hb
      subst hb
      exact hd ha

theorem expandLoop_main (R : IndicatorSpec → Prop)
    (hR : ∀ v d, R v → d ∈ dependencies v → R d) :
    ∀ (fuel : ℕ) (result queue : List IndicatorSpec), phi queue < fuel →
      (∀ x ∈ queue, x ∈ result) → result.Nodup →
      (∀ v ∈ result, v ∈ queue ∨ ∀ d ∈ dependencies v, d ∈ result) →
      (∀ v ∈ result, R v) →
      (∀ v ∈ result, v ∈ expandLoop fuel result queue) ∧
      (expandLoop fuel result queue).Nodup ∧
      (∀ v ∈ expandLoop fuel result queue, ∀ d ∈ dependencies v,
        d ∈ expandLoop fuel result queue) ∧
      (∀ v ∈ expandLoop fuel result queue, R v) := by
  intro fuel
  induction fuel with
  | zero => intro result queue hfuel; omega
  | succ fuel ih =>
    intro result queue hfuel hqr hnd hinv hRres
    match queue with
    | [] =>
      refine ⟨fun v hv => hv, hnd, ?_, hRres⟩
      intro v hv d hd
      rcases hinv v hv with h | h
      · simp at h
      · exact h d hd
    | x :: xs =>
      simp only [expandLoop]
      set s := (x :: xs).getLast (List.cons_ne_nil x xs) with hs
      set rest := (x :: xs).dropLast with hrest
      have hq : rest ++ [s] = x :: xs := List.dropLast_append_getLast (List.cons_ne_nil x xs)
      set p := processDeps result (dependencies s) with hp
      have hsq : s ∈ x :: xs := by rw [← hq]; simp
      have hsr : s ∈ result := hqr s hsq
      have hphi : phi (rest ++ p.2) < fuel := by
        have h1 : phi (rest ++ [s]) = phi rest + specWeight s := by
          rw [phi_append, phi_cons]; simp [phi]
        have h2 : phi p.2 ≤ phi (dependencies s) := phi_sublist_le _ result
        have h3 := phi_dependencies_lt s
        have h4 : phi (x :: xs) = phi rest + specWeight s := by rw [← hq] at *; exact h1
        rw [phi_append]
        omega
      have hq2 : ∀ y ∈ rest ++ p.2, y ∈ p.1 := by
        intro y hy
        rcases List.mem_append.mp hy with hy | hy
        · exact processDeps_sup _ _ _ (hqr y (by rw [← hq]; exact List.mem_append_left _ hy))
        · rw [processDeps_eq]; exact List.mem_append_right _ hy
      have hnd2 : p.1.Nodup := processDeps_nodup _ _ hnd
      have hinv2 : ∀ v ∈ p.1, v ∈ rest ++ p.2 ∨ ∀ d ∈ dependencies v, d ∈ p.1 := by
        intro v hv
        rw [processDeps_eq] at hv
        rcases List.mem_append.mp hv with hv | hv
        · rcases hinv v hv with h | h
          · rw [← hq] at h
            rcases List.mem_append.mp h with h | h
            · exact Or.inl (List.mem_append_left _ h)
            · simp only [List.mem_singleton] at h
              subst h
              exact Or.inr (fun d hd => processDeps_mem_fst _ _ d hd)
          · exact Or.inr (fun d hd => processDeps_sup _ _ _ (h d hd))
        · exact Or.inl (List.mem_append_right _ hv)
      have hR2 : ∀ v ∈ p.1, R v := by
        intro v hv
        rw [processDeps_eq] at hv
        rcases List.mem_append.mp hv with hv | hv
        · exact hRres v hv
        · exact hR s v (hRres s hsr) (processDeps_snd_sub _ _ v hv)
      obtain ⟨c1, c2, c3, c4⟩ := ih p.1 (rest ++ p.2) hphi hq2 hnd2 hinv2 hR2
      exact ⟨fun v hv => c1 v (processDeps_sup _ _ _ hv), c2, c3, c4⟩

/-- Full characterisation of `expand_dependencies` on a duplicate-free
request list: it contains the requests, is duplicate-free, is closed under
the dependency edges, and is exactly the set of specs reachable from the
requests. -/
theorem expandDependencies_spec (specs : List IndicatorSpec) (h : specs.Nodup) :
    (∀ v ∈ specs, v ∈ expandDependencies specs) ∧
    (expandDependencies specs).Nodup ∧
    (∀ v ∈ expandDependencies specs, ∀ d ∈ dependencies v,
      d ∈ expandDependencies specs) ∧
    (∀ v ∈ expandDependencies specs, ∃ r ∈ specs, DepReach r v) ∧
    (∀ v, (∃ r ∈ specs, DepReach r v) → v ∈ expandDependencies specs) := by
  have main := expandLoop_main (fun v => ∃ r ∈ specs, DepReach r v)
    (fun v d hv hd => by
      obtain ⟨r, hr, hreach⟩ := hv
      exact ⟨r, hr, DepReach.step hreach hd⟩)
    (phi specs + 1) specs specs (by omega) (fun x hx => hx) h
    (fun v hv => Or.inl hv)
    (fun v hv => ⟨v, hv, DepReach.refl v⟩)
  obtain ⟨c1, c2, c3, c4⟩ := main
  refine ⟨c1, c2, c3, c4, ?_⟩
  rintro v ⟨r, hr, hreach⟩
  induction hreach with
  | refl => exact c1 _ hr
  | step hab hd ihab => exact c3 _ ihab _ hd

/-! ## Helper lemmas: in-degree and dependents maps -/

theorem innerFold_fst (all : List IndicatorSpec) (spec : IndicatorSpec)
    (ds : List IndicatorSpec) :
    ∀ (st : (IndicatorSpec → Int) × (IndicatorSpec → List IndicatorSpec))
      (v : IndicatorSpec),
      ((ds.foldl (fun st2 dep =>
          if dep ∈ all then (inDegInc st2.1 spec, depAppend st2.2 dep spec) else st2)
        st).1 v)
      = st.1 v + if v = spec
          then (((ds.filter (fun d => decide (d ∈ all))).length : ℕ) : Int) else 0 := by
  induction ds with
  | nil => intro st v; simp
  | cons d ds ih =>
    intro st v
    rw [List.foldl_cons]
    by_cases hd : d ∈ all
    · rw [if_pos hd, ih]
      by_cases hv : v = spec
      · subst hv
        simp [inDegInc, List.filter_cons, hd]
        push_cast
        ring
      · simp [inDegInc, List.filter_cons, hd, hv]
    · rw [if_neg hd, ih]
      simp only [List.filter_cons]
      have hdec : (decide (d ∈ all)) = false := by simp [hd]
      rw [hdec]
      simp

theorem innerFold_snd (all : List IndicatorSpec) (spec : IndicatorSpec)
    (ds : List IndicatorSpec) :
    ∀ (st : (IndicatorSpec → Int) × (IndicatorSpec → List IndicatorSpec))
      (u v : IndicatorSpec),
      List.count v (((ds.foldl (fun st2 dep =>
          if dep ∈ all then (inDegInc st2.1 spec, depAppend st2.2 dep spec) else st2)
        st).2) u)
      = List.count v (st.2 u) + if v = spec ∧ u ∈ all then ds.count u else 0 := by
  induction ds with
  | nil => intro st u v; simp
  | cons d ds ih =>
    intro st u v
    rw [List.foldl_cons]
    by_cases hd : d ∈ all
    · rw [if_pos hd, ih]
      simp only [depAppend]
      by_cases hu : u = d
      · subst hu
        rw [if_pos rfl, List.count_append]
        have hcs : List.count v [spec] = if v = spec then 1 else 0 := by
          by_cases hvs : v = spec <;> simp [hvs, List.count_singleton']
        rw [hcs, List.count_cons]
        by_cases hvs : v = spec <;> simp [hvs, hd] <;> omega
      · rw [if_neg hu, List.count_cons]
        have hdu : ¬ (d = u) := fun h => hu h.symm
        by_cases hvs : v = spec <;> by_cases hua : u ∈ all <;>
          simp [hvs, hua, hdu]
    · rw [if_neg hd, ih, List.count_cons]
      by_cases hvs : v = spec <;> by_cases hua : u ∈ all <;> simp [hvs, hua]
      intro hdu
      exact absurd (hdu ▸ hua) hd

theorem buildEdges_fst (all : List IndicatorSpec) (hN : all.Nodup)
    (v : IndicatorSpec) :
    (buildEdges all).1 v = if v ∈ all
      then ((((dependencies v).filter (fun d => decide (d ∈ all))).length : ℕ) : Int)
      else 0 := by
  have outer : ∀ (l : List IndicatorSpec)
      (st : (IndicatorSpec → Int) × (IndicatorSpec → List IndicatorSpec)),
      l.Nodup →
      ((l.foldl (fun st spec =>
          (dependencies spec).foldl (fun st2 dep =>
            if dep ∈ all then (inDegInc st2.1 spec, depAppend st2.2 dep spec) else st2)
          st) st).1 v)
      = st.1 v + if v ∈ l
          then ((((dependencies v).filter (fun d => decide (d ∈ all))).length : ℕ) : Int)
          else 0 := by
    intro l
    induction l with
    | nil => intro st _; simp
    | cons spec l ih =>
      intro st hnd
      rw [List.foldl_cons, ih _ (List.Nodup.of_cons hnd), innerFold_fst]
      by_cases hv : v = spec
      · subst hv
        have hvl : v ∉ l := (List.nodup_cons.mp hnd).1
        simp [hvl]
      · simp only [List.mem_cons]
        by_cases hvl : v ∈ l <;> simp [hv, hvl]
  rw [buildEdges, outer all _ hN]
  simp

theorem buildEdges_snd_count (all : List IndicatorSpec) (hN : all.Nodup)
    (u v : IndicatorSpec) :
    List.count v ((buildEdges all).2 u)
      = if u ∈ all ∧ v ∈ all then (dependencies v).count u else 0 := by
  have outer : ∀ (l : List IndicatorSpec)
      (st : (IndicatorSpec → Int) × (IndicatorSpec → List IndicatorSpec)),
      l.Nodup →
      List.count v (((l.foldl (fun st spec =>
          (dependencies spec).foldl (fun st2 dep =>
            if dep ∈ all then (inDegInc st2.1 spec, depAppend st2.2 dep spec) else st2)
          st) st).2) u)
      = List.count v (st.2 u) + if u ∈ all ∧ v ∈ l
          then (dependencies v).count u else 0 := by
    intro l
    induction l with
    | nil => intro st _; simp
    | cons spec l ih =>
      intro st hnd
      rw [List.foldl_cons, ih _ (List.Nodup.of_cons hnd), innerFold_snd]
      by_cases hv : v = spec
      · subst hv
        have hvl : v ∉ l := (List.nodup_cons.mp hnd).1
        by_cases hua : u ∈ all <;> simp [hvl, hua]
      · simp only [List.mem_cons]
        by_cases hvl : v ∈ l <;> by_cases hua : u ∈ all <;> simp [hv, hvl, hua]
  rw [buildEdges, outer all _ hN]
  simp [and_comm]

theorem buildEdges_snd_mem (all : List IndicatorSpec) (hN : all.Nodup)
    {u v : IndicatorSpec} (h : v ∈ (buildEdges all).2 u) :
    v ∈ all ∧ u ∈ all ∧ u ∈ dependencies v := by
  have hc : 0 < List.count v ((buildEdges all).2 u) := List.count_pos_iff_mem.mpr h
  rw [buildEdges_snd_count all hN u v] at hc
  by_cases hua : u ∈ all ∧ v ∈ all
  · rw [if_pos hua] at hc
    exact ⟨hua.2, hua.1, List.count_pos_iff_mem.mp hc⟩
  · rw [if_neg hua] at hc
    omega

/-! ## Helper lemmas: in-degree decrement pass -/

theorem decAll_fst (L : List IndicatorSpec) :
    ∀ (f : IndicatorSpec → Int) (v : IndicatorSpec),
      (decAll f L).1 v = f v - (L.count v : Int) := by
  induction L with
  | nil => intro f v; simp [decAll]
  | cons w ws ih =>
    intro f v
    have hbr : (decAll f (w :: ws)).1
        = (decAll (fun u => if u = w then f u - 1 else f u) ws).1 := by
      simp only [decAll]
      split_ifs <;> rfl
    rw [hbr, ih]
    rcases eq_or_ne v w with rfl | hv
    · rw [if_pos rfl, List.count_cons_self]
      push_cast
      ring
    · rw [if_neg hv, List.count_cons_of_ne hv]

theorem decAll_snd_mem (L : List IndicatorSpec) :
    ∀ (f : IndicatorSpec → Int) (v : IndicatorSpec),
      v ∈ (decAll f L).2 ↔ (1 ≤ f v ∧ f v ≤ (L.count v : Int)) := by
  induction L with
  | nil => intro f v; simp [decAll]; omega
  | cons w ws ih =>
    intro f v
    by_cases hz : f w - 1 = 0
    · have hbr : (decAll f (w :: ws)).2
          = w :: (decAll (fun u => if u = w then f u - 1 else f u) ws).2 := by
        simp only [decAll]
        rw [if_pos (by simpa using hz)]
      rw [hbr]
      simp only [List.mem_cons]
      rw [ih]
      rcases eq_or_ne v w with rfl | hv
      · simp only [eq_self_iff_true, true_or, true_iff, List.count_cons_self,
          if_pos rfl]
        push_cast
        omega
      · simp [hv, List.count_cons_of_ne hv]
    · have hbr : (decAll f (w :: ws)).2
          = (decAll (fun u => if u = w then f u - 1 else f u) ws).2 := by
        simp only [decAll]
        rw [if_neg (by simpa using hz)]
      rw [hbr, ih]
      rcases eq_or_ne v w with rfl | hv
      · rw [if_pos rfl, List.count_cons_self]
        push_cast
        omega
      · rw [if_neg hv, List.count_cons_of_ne hv]

theorem decAll_snd_nodup (L : List IndicatorSpec) :
    ∀ (f : IndicatorSpec → Int), (decAll f L).2.Nodup := by
  induction L with
  | nil => intro f; simp [decAll]
  | cons w ws ih =>
    intro f
    by_cases hz : f w - 1 = 0
    · have hbr : (decAll f (w :: ws)).2
          = w :: (decAll (fun u => if u = w then f u - 1 else f u) ws).2 := by
        simp only [decAll]
        rw [if_pos (by simpa using hz)]
      rw [hbr]
      simp only [List.nodup_cons]
      refine ⟨?_, ih _⟩
      rw [decAll_snd_mem]
      simp
      omega
    · have hbr : (decAll f (w :: ws)).2
          = (decAll (fun u => if u = w then f u - 1 else f u) ws).2 := by
        simp only [decAll]
        rw [if_neg (by simpa using hz)]
      rw [hbr]
      exact ih _

theorem decAll_snd_sub (L : List IndicatorSpec) (f : IndicatorSpec → Int)
    {v : IndicatorSpec} (h : v ∈ (decAll f L).2) : v ∈ L := by
  rw [decAll_snd_mem] at h
  have hc : 0 < L.count v := by omega
  exact List.count_pos_iff_mem.mp hc

/-! ## Helper lemmas: filters and counts -/

theorem filter_length_mono {α : Type} (p q : α → Bool) :
    ∀ (l : List α), (∀ a ∈ l, p a = true → q a = true) →
      (l.filter p).length ≤ (l.filter q).length := by
  intro l
  induction l with
  | nil => intro _; simp
  | cons a l ih =>
    intro h
    have ht := ih (fun b hb => h b (List.mem_cons_of_mem a hb))
    rw [List.filter_cons, List.filter_cons]
    by_cases hp : p a = true
    · rw [hp, h a (List.mem_cons_self a l) hp]
      simpa using ht
    · have hp' : p a = false := by
        cases hpa : p a
        · rfl
        · exact absurd hpa hp
      rw [hp']
      by_cases hq : q a = true
      · rw [hq]
        simp only [if_true]
        calc (List.filter p l).length ≤ (List.filter q l).length := ht
          _ ≤ (a :: List.filter q l).length := by simp
      · have hq' : q a = false := by
          cases hqa : q a
          · rfl
          · exact absurd hqa hq
        rw [hq']
        simpa using ht

theorem filter_length_eq_all {α : Type} (p : α → Bool) :
    ∀ (l : List α), (l.filter p).length = l.length → ∀ a ∈ l, p a = true := by
  intro l
  induction l with
  | nil => intro _ a ha; simp at ha
  | cons a l ih =>
    intro h b hb
    rw [List.filter_cons] at h
    by_cases hp : p a = true
    · rw [hp] at h
      simp only [if_true, List.length_cons] at h
      rcases List.mem_cons.mp hb with rfl | hb
      · exact hp
      · exact ih (by omega) b hb
    · have hp' : p a = false := by
        cases hpa : p a
        · rfl
        · exact absurd hpa hp
      rw [hp'] at h
      simp only [Bool.false_eq_true, if_false, List.length_cons] at h
      have hle := List.length_filter_le p l
      omega

theorem filter_exists_of_length_lt {α : Type} (p q : α → Bool) (l : List α)
    (h : (l.filter p).length < (l.filter q).length) :
    ∃ a ∈ l, q a = true ∧ p a = false := by
  by_contra hc
  push_neg at hc
  have hmono := filter_length_mono q p l (fun a ha hq => by
    rcases hpa : p a with _ | _
    · exact absurd hpa (hc a ha hq)
    · rfl)
  omega

theorem filter_mem_append_singleton (r : List IndicatorSpec) (s : IndicatorSpec)
    (hs : s ∉ r) :
    ∀ l : List IndicatorSpec,
      (l.filter (fun d => decide (d ∈ r ++ [s]))).length
        = (l.filter (fun d => decide (d ∈ r))).length + l.count s := by
  intro l
  induction l with
  | nil => simp
  | cons a l ih =>
    rw [List.filter_cons, List.filter_cons, List.count_cons]
    rcases eq_or_ne a s with heq | ha
    · have h1 : (decide (a ∈ r ++ [s])) = true := by simp [heq]
      have h2 : (decide (a ∈ r)) = false := by
        rw [heq]; simpa using hs
      have h3 : (a == s) = true := by simp [heq]
      rw [h1, h2]
      simp only [eq_self_iff_true, if_true, Bool.false_eq_true, if_false,
        List.length_cons, h3, ih]
      omega
    · have h3 : (a == s) = false := by simpa using ha
      by_cases har : a ∈ r
      · have h1 : (decide (a ∈ r ++ [s])) = true := by simp [har]
        have h2 : (decide (a ∈ r)) = true := by simpa using har
        rw [h1, h2]
        simp only [eq_self_iff_true, if_true, Bool.false_eq_true, if_false,
          List.length_cons, h3, ih]
        omega
      · have h1 : (decide (a ∈ r ++ [s])) = false := by simp [har, ha]
        have h2 : (decide (a ∈ r)) = false := by simpa using har
        rw [h1, h2]
        simp only [eq_self_iff_true, if_true, Bool.false_eq_true, if_false,
          List.length_cons, h3, ih]
        omega

/-! ## Helper lemmas: Kahn loop -/

theorem kahnLoop_nil (depnts : IndicatorSpec → List IndicatorSpec) (fuel : ℕ)
    (inDeg : IndicatorSpec → Int) (result : List IndicatorSpec) :
    kahnLoop depnts fuel inDeg result [] = some result := by
  cases fuel <;> rfl

theorem kahnLoop_cons_succ (depnts : IndicatorSpec → List IndicatorSpec) (fuel : ℕ)
    (inDeg : IndicatorSpec → Int) (result : List IndicatorSpec)
    (s : IndicatorSpec) (rest : List IndicatorSpec) :
    kahnLoop depnts (fuel + 1) inDeg result (s :: rest)
      = kahnLoop depnts fuel (decAll inDeg (depnts s)).1 (result ++ [s])
          (rest ++ (decAll inDeg (depnts s)).2) := rfl

theorem kahn_complete (all : List IndicatorSpec)
    (hCl : ∀ s ∈ all, ∀ d ∈ dependencies s, d ∈ all)
    (inDeg : IndicatorSpec → Int) (result : List IndicatorSpec)
    (h2 : ∀ v ∈ result, v ∈ all)
    (h3 : ∀ v ∈ all, inDeg v
      = ((((dependencies v).filter (fun d => decide (d ∈ all))).length : ℕ) : Int)
        - ((((dependencies v).filter (fun d => decide (d ∈ result))).length : ℕ) : Int))
    (h4 : ∀ v ∈ all, (inDeg v = 0 ↔ v ∈ result)) :
    ∀ v ∈ all, v ∈ result := by
  have main : ∀ r, ∀ v ∈ all, rank v.type < r → v ∈ result := by
    intro r
    induction r with
    | zero => intro v _ h; omega
    | succ r ihr =>
      intro v hv hr
      by_contra hnv
      have hnz : inDeg v ≠ 0 := fun h => hnv ((h4 v hv).mp h)
      have h3v := h3 v hv
      have hmono : ((dependencies v).filter (fun d => decide (d ∈ result))).length
          ≤ ((dependencies v).filter (fun d => decide (d ∈ all))).length :=
        filter_length_mono _ _ _ (fun a _ hp => by
          simp only [decide_eq_true_eq] at hp ⊢
          exact h2 a hp)
      have hlt : ((dependencies v).filter (fun d => decide (d ∈ result))).length
          < ((dependencies v).filter (fun d => decide (d ∈ all))).length := by omega
      obtain ⟨d, hdmem, hq, hpf⟩ := filter_exists_of_length_lt _ _ _ hlt
      simp only [decide_eq_true_eq] at hq
      simp only [decide_eq_false_iff_not] at hpf
      have hd : d ∈ result := ihr d hq (by
        have := rank_dependencies hdmem
        omega)
      exact hpf hd
  intro v hv
  exact main (rank v.type + 1) v hv (Nat.lt_succ_self _)

theorem kahn_deps_cached (all : List IndicatorSpec)
    (hCl : ∀ s ∈ all, ∀ d ∈ dependencies s, d ∈ all)
    (inDeg : IndicatorSpec → Int) (result : List IndicatorSpec)
    (h3 : ∀ v ∈ all, inDeg v
      = ((((dependencies v).filter (fun d => decide (d ∈ all))).length : ℕ) : Int)
        - ((((dependencies v).filter (fun d => decide (d ∈ result))).length : ℕ) : Int)) :
    ∀ v ∈ all, inDeg v = 0 → ∀ d ∈ dependencies v, d ∈ result := by
  intro v hv hz d hd
  have h3v := h3 v hv
  have hAfull : ((dependencies v).filter (fun d => decide (d ∈ all))).length
      = (dependencies v).length := by
    have heq : (dependencies v).filter (fun d => decide (d ∈ all)) = dependencies v :=
      List.filter_eq_self.mpr (fun a ha => by simpa using hCl v hv a ha)
    rw [heq]
  have hBle := List.length_filter_le (fun d => decide (d ∈ result)) (dependencies v)
  rw [hAfull] at h3v
  have hBA : ((dependencies v).filter (fun d => decide (d ∈ result))).length
      = (dependencies v).length := by omega
  have hall := filter_length_eq_all _ _ hBA d hd
  simpa using hall

theorem kahnLoop_main (all : List IndicatorSpec) (hNA : all.Nodup)
    (hCl : ∀ s ∈ all, ∀ d ∈ dependencies s, d ∈ all) :
    ∀ (fuel : ℕ) (inDeg : IndicatorSpec → Int) (result queue : List IndicatorSpec),
      all.length - result.length ≤ fuel →
      (result ++ queue).Nodup →
      (∀ v ∈ result, v ∈ all) →
      (∀ v ∈ queue, v ∈ all) →
      (∀ v ∈ all, inDeg v
        = ((((dependencies v).filter (fun d => decide (d ∈ all))).length : ℕ) : Int)
          - ((((dependencies v).filter (fun d => decide (d ∈ result))).length : ℕ) : Int)) →
      (∀ v ∈ all, (inDeg v = 0 ↔ (v ∈ result ∨ v ∈ queue))) →
      (∀ i (hi : i < result.length), ∀ d ∈ dependencies result[i], d ∈ result.take i) →
      ∃ out, kahnLoop (buildEdges all).2 fuel inDeg result queue = some out ∧
        (∀ v, v ∈ out ↔ v ∈ all) ∧ out.Nodup ∧
        (∀ i (hi : i < out.length), ∀ d ∈ dependencies out[i], d ∈ out.take i) := by
  intro fuel
  induction fuel with
  | zero =>
    intro inDeg result queue hf h1 h2 h2q h3 h4 h5
    cases queue with
    | nil =>
      refine ⟨result, kahnLoop_nil _ _ _ _, ?_, by simpa using h1, h5⟩
      intro v
      exact ⟨fun hv => h2 v hv,
        fun hv => kahn_complete all hCl inDeg result h2 h3
          (fun w hw => by simpa using h4 w hw) v hv⟩
    | cons s rest =>
      exfalso
      have hsall : s ∈ all := h2q s (List.mem_cons_self s rest)
      have hdisj := List.disjoint_of_nodup_append h1
      have hsres : s ∉ result := fun hs => hdisj hs (List.mem_cons_self s rest)
      have hsub : (result ++ [s]) ⊆ all := by
        intro v hv
        rcases List.mem_append.mp hv with hv | hv
        · exact h2 v hv
        · simp only [List.mem_singleton] at hv
          subst hv
          exact hsall
      have hsl : List.Sublist (result ++ [s]) (result ++ s :: rest) :=
        List.Sublist.append_left (List.Sublist.cons₂ s (List.nil_sublist rest)) result
      have hnd : (result ++ [s]).Nodup := List.Nodup.sublist hsl h1
      have hlen := (List.subperm_of_subset hnd hsub).length_le
      rw [List.length_append, List.length_singleton] at hlen
      omega
  | succ fuel ih =>
    intro inDeg result queue hf h1 h2 h2q h3 h4 h5
    cases queue with
    | nil =>
      refine ⟨result, kahnLoop_nil _ _ _ _, ?_, by simpa using h1, h5⟩
      intro v
      exact ⟨fun hv => h2 v hv,
        fun hv => kahn_complete all hCl inDeg result h2 h3
          (fun w hw => by simpa using h4 w hw) v hv⟩
    | cons s rest =>
      rw [kahnLoop_cons_succ]
      have hsall : s ∈ all := h2q s (List.mem_cons_self s rest)
      have hdisj := List.disjoint_of_nodup_append h1
      have hsres : s ∉ result := fun hs => hdisj hs (List.mem_cons_self s rest)
      have hdeg0 : inDeg s = 0 := (h4 s hsall).mpr (Or.inr (List.mem_cons_self s rest))
      have hfull := kahn_deps_cached all hCl inDeg result h3
      have hdeps_s : ∀ d ∈ dependencies s, d ∈ result := hfull s hsall hdeg0
      have hcnt : ∀ v, List.count v ((buildEdges all).2 s)
          = if v ∈ all then (dependencies v).count s else 0 := by
        intro v
        rw [buildEdges_snd_count all hNA s v]
        by_cases hva : v ∈ all <;> simp [hsall, hva]
      have hdec1 : ∀ v, (decAll inDeg ((buildEdges all).2 s)).1 v
          = inDeg v - ((((buildEdges all).2 s).count v : ℕ) : Int) :=
        fun v => decAll_fst _ _ v
      have hp2mem : ∀ v, v ∈ (decAll inDeg ((buildEdges all).2 s)).2
          ↔ (1 ≤ inDeg v ∧ inDeg v ≤ ((((buildEdges all).2 s).count v : ℕ) : Int)) :=
        fun v => decAll_snd_mem _ _ v
      have hp2all : ∀ v ∈ (decAll inDeg ((buildEdges all).2 s)).2, v ∈ all :=
        fun v hv => (buildEdges_snd_mem all hNA (decAll_snd_sub _ _ hv)).1
      have hp2pos : ∀ v ∈ (decAll inDeg ((buildEdges all).2 s)).2, inDeg v ≠ 0 := by
        intro v hv
        have hm := (hp2mem v).mp hv
        omega
      have hp2nres : ∀ v ∈ (decAll inDeg ((buildEdges all).2 s)).2,
          v ∉ result ∧ v ∉ s :: rest := by
        intro v hv
        have hva := hp2all v hv
        have hnz := hp2pos v hv
        exact ⟨fun hvr => hnz ((h4 v hva).mpr (Or.inl hvr)),
          fun hvq => hnz ((h4 v hva).mpr (Or.inr hvq))⟩
      have hcnt0 : ∀ v ∈ all, inDeg v = 0 → (dependencies v).count s = 0 := by
        intro v hva hz
        rw [List.count_eq_zero]
        intro hsd
        exact hsres (hfull v hva hz s hsd)
      have hbound : all.length - (result ++ [s]).length ≤ fuel := by
        rw [List.length_append, List.length_singleton]
        omega
      have hnodup2 : ((result ++ [s]) ++ (rest ++ (decAll inDeg ((buildEdges all).2 s)).2)).Nodup := by
        have hold : ((result ++ [s]) ++ rest).Nodup := by
          rw [← List.append_cons]
          exact h1
        rw [← List.append_assoc, List.nodup_append]
        refine ⟨hold, decAll_snd_nodup _ _, ?_⟩
        intro a ha hb
        have hnr := hp2nres a hb
        rcases List.mem_append.mp ha with ha | ha
        · rcases List.mem_append.mp ha with ha | ha
          · exact hnr.1 ha
          · simp only [List.mem_singleton] at ha
            subst ha
            exact hnr.2 (List.mem_cons_self _ _)
        · exact hnr.2 (List.mem_cons_of_mem _ ha)
      have hsub2 : ∀ v ∈ result ++ [s], v ∈ all := by
        intro v hv
        rcases List.mem_append.mp hv with hv | hv
        · exact h2 v hv
        · simp only [List.mem_singleton] at hv
          subst hv
          exact hsall
      have hsubq2 : ∀ v ∈ rest ++ (decAll inDeg ((buildEdges all).2 s)).2, v ∈ all := by
        intro v hv
        rcases List.mem_append.mp hv with hv | hv
        · exact h2q v (List.mem_cons_of_mem _ hv)
        · exact hp2all v hv
      have hi3 : ∀ v ∈ all, (decAll inDeg ((buildEdges all).2 s)).1 v
          = ((((dependencies v).filter (fun d => decide (d ∈ all))).length : ℕ) : Int)
            - ((((dependencies v).filter
                (fun d => decide (d ∈ result ++ [s]))).length : ℕ) : Int) := by
        intro v hva
        rw [hdec1 v, h3 v hva, hcnt v, if_pos hva,
          filter_mem_append_singleton result s hsres (dependencies v)]
        push_cast
        ring
      have hi4 : ∀ v ∈ all, ((decAll inDeg ((buildEdges all).2 s)).1 v = 0
          ↔ (v ∈ result ++ [s] ∨ v ∈ rest ++ (decAll inDeg ((buildEdges all).2 s)).2)) := by
        intro v hva
        rw [hdec1 v, hcnt v, if_pos hva]
        by_cases hvr : v ∈ result
        · have hz : inDeg v = 0 := (h4 v hva).mpr (Or.inl hvr)
          have hc0 := hcnt0 v hva hz
          simp [hz, hc0, hvr]
        · by_cases hvs : v = s
          · subst hvs
            have hsd : v ∉ dependencies v :=
              fun h => absurd (rank_dependencies h) (lt_irrefl _)
            have hc0 : (dependencies v).count v = 0 := List.count_eq_zero.mpr hsd
            have hds : inDeg v = 0 := hdeg0
            simp [hds, hc0]
          · by_cases hvrest : v ∈ rest
            · have hz : inDeg v = 0 :=
                (h4 v hva).mpr (Or.inr (List.mem_cons_of_mem _ hvrest))
              have hc0 := hcnt0 v hva hz
              simp [hz, hc0, hvrest]
            · have hnz : inDeg v ≠ 0 := by
                intro hz
                rcases (h4 v hva).mp hz with h | h
                · exact hvr h
                · rcases List.mem_cons.mp h with h | h
                  · exact hvs h
                  · exact hvrest h
              have h3v := h3 v hva
              have hABc : ((dependencies v).filter
                    (fun d => decide (d ∈ result))).length + (dependencies v).count s
                  ≤ ((dependencies v).filter (fun d => decide (d ∈ all))).length := by
                have hm := filter_length_mono (fun d => decide (d ∈ result ++ [s]))
                  (fun d => decide (d ∈ all)) (dependencies v) (fun a _ hp => by
                    simp only [decide_eq_true_eq] at hp ⊢
                    rcases List.mem_append.mp hp with hp | hp
                    · exact h2 a hp
                    · simp only [List.mem_singleton] at hp
                      subst hp
                      exact hsall)
                rw [filter_mem_append_singleton result s hsres (dependencies v)] at hm
                exact hm
              have hrhs : (v ∈ result ++ [s]
                    ∨ v ∈ rest ++ (decAll inDeg ((buildEdges all).2 s)).2)
                  ↔ v ∈ (decAll inDeg ((buildEdges all).2 s)).2 := by
                simp [List.mem_append, hvr, hvs, hvrest]
              rw [hrhs, hp2mem v, hcnt v, if_pos hva]
              omega
      have hi5 : ∀ i (hi : i < (result ++ [s]).length),
          ∀ d ∈ dependencies (result ++ [s])[i], d ∈ (result ++ [s]).take i := by
        intro i hi d hd
        rw [List.length_append, List.length_singleton] at hi
        by_cases hile : i < result.length
        · rw [List.getElem_append_left hile] at hd
          rw [List.take_append_of_le_length (le_of_lt hile)]
          exact h5 i hile d hd
        · have hieq : i = result.length := by omega
          subst hieq
          rw [List.getElem_concat_length _ _ _ rfl] at hd
          rw [List.take_left]
          exact hdeps_s d hd
      exact ih (decAll inDeg ((buildEdges all).2 s)).1 (result ++ [s])
        (rest ++ (decAll inDeg ((buildEdges all).2 s)).2)
        hbound hnodup2 hsub2 hsubq2 hi3 hi4 hi5

theorem topologicalSort_spec (specs : List IndicatorSpec) (hN : specs.Nodup) :
    ∃ out, topologicalSort specs = some out ∧
      (∀ v, v ∈ out ↔ v ∈ expandDependencies specs) ∧ out.Nodup ∧
      (∀ i (hi : i < out.length), ∀ d ∈ dependencies out[i], d ∈ out.take i) := by
  obtain ⟨e1, e2, e3, _, _⟩ := expandDependencies_spec specs hN
  have hmain := kahnLoop_main (expandDependencies specs) e2 e3
    ((expandDependencies specs).length + 1) (buildEdges (expandDependencies specs)).1
    [] ((expandDependencies specs).filter
      (fun v => (buildEdges (expandDependencies specs)).1 v == 0))
    (by omega)
    (by simpa using List.Nodup.filter _ e2)
    (by intro v hv; simp at hv)
    (fun v hv => List.mem_of_mem_filter hv)
    (by
      intro v hv
      rw [buildEdges_fst _ e2 v, if_pos hv]
      have hnil : ((dependencies v).filter
          (fun d => decide (d ∈ ([] : List IndicatorSpec)))) = [] := by
        simp
      rw [hnil]
      simp)
    (by
      intro v hv
      simp only [List.not_mem_nil, false_or]
      constructor
      · intro hz
        exact List.mem_filter.mpr ⟨hv, by simpa using hz⟩
      · intro hm
        have := (List.mem_filter.mp hm).2
        simpa using this)
    (by intro i hi; simp at hi)
  obtain ⟨out, hloop, c1, c2, c3⟩ := hmain
  have hsub1 : out ⊆ expandDependencies specs := fun v hv => (c1 v).mp hv
  have hsub2 : expandDependencies specs ⊆ out := fun v hv => (c1 v).mpr hv
  have hlen : out.length = (expandDependencies specs).length :=
    le_antisymm (List.subperm_of_subset c2 hsub1).length_le
      (List.subperm_of_subset e2 hsub2).length_le
  refine ⟨out, ?_, c1, c2, c3⟩
  simp only [topologicalSort]
  rw [hloop]
  show (if out.length = (expandDependencies specs).length then some out else none)
    = some out
  rw [if_pos hlen]

/-- C5: for every finite duplicate-free set of arity-correct indicator
identifiers, `topological_sort` succeeds and returns an ordering containing
each identifier of the expanded set (the requests plus all transitive
dependencies, characterised by `DepReach`) exactly once, in which every
dependency's position strictly precedes its dependent's. -/
theorem topological_sort_correct (specs : List IndicatorSpec)
    (hN : specs.Nodup) (hwf : ∀ s ∈ specs, wfSpec s = true) :
    ∃ out, topologicalSort specs = some out ∧
      (∀ v, v ∈ out ↔ v ∈ expandDependencies specs) ∧
      (∀ v, v ∈ expandDependencies specs ↔ (∃ r ∈ specs, DepReach r v)) ∧
      out.Nodup ∧
      (∀ i j (hi : i < out.length) (hj : j < out.length),
        out[j] ∈ dependencies out[i] → j < i) := by
  obtain ⟨_, _, _, e4, e5⟩ := expandDependencies_spec specs hN
  obtain ⟨out, hout, c1, c2, c3⟩ := topologicalSort_spec specs hN
  refine ⟨out, hout, c1, fun v => ⟨e4 v, e5 v⟩, c2, ?_⟩
  intro i j hi hj hd
  have htake : out[j] ∈ out.take i := c3 i hi out[j] hd
  by_contra hji
  push_neg at hji
  obtain ⟨k, hk, hkj⟩ := List.getElem_of_mem htake
  have hklt : k < i := lt_of_lt_of_le hk (List.length_take_le i out)
  rw [List.getElem_take] at hkj
  have hkeq : k = j := (List.Nodup.getElem_inj_iff c2).mp hkj
  omega

/-- Witness for C5 on the request set `[MACD_HISTOGRAM(12, 26, 9)]`. -/
theorem topological_sort_correct_witness :
    ([⟨.MACD_HISTOGRAM, [12, 26, 9]⟩] : List IndicatorSpec).Nodup ∧
    (∃ out, topologicalSort [⟨.MACD_HISTOGRAM, [12, 26, 9]⟩] = some out ∧
      (∀ v, v ∈ out ↔ v ∈ expandDependencies [⟨.MACD_HISTOGRAM, [12, 26, 9]⟩]) ∧
      (∀ v, v ∈ expandDependencies [⟨.MACD_HISTOGRAM, [12, 26, 9]⟩]
        ↔ (∃ r ∈ ([⟨.MACD_HISTOGRAM, [12, 26, 9]⟩] : List IndicatorSpec), DepReach r v)) ∧
      out.Nodup ∧
      (∀ i j (hi : i < out.length) (hj : j < out.length),
        out[j] ∈ dependencies out[i] → j < i)) :=
  ⟨by decide, topological_sort_correct [⟨.MACD_HISTOGRAM, [12, 26, 9]⟩]
    (by decide) (by decide)⟩

/-! ## Helper lemmas: cache primitives -/

theorem lookupC_insertC (c : Cache) (s : IndicatorSpec) (v : ℕ × ℕ)
    (k : IndicatorSpec) :
    lookupC (insertC c s v) k = if s = k then some v else lookupC c k := by
  simp only [lookupC, insertC, List.find?_cons]
  rcases eq_or_ne s k with rfl | h
  · simp
  · have hb : (s == k) = false := by simpa using h
    rw [hb, if_neg h]

theorem lookupC_insertC_self (c : Cache) (s : IndicatorSpec) (v : ℕ × ℕ) :
    lookupC (insertC c s v) s = some v := by
  rw [lookupC_insertC, if_pos rfl]

theorem lookupC_insertC_ne (c : Cache) (s : IndicatorSpec) (v : ℕ × ℕ)
    (k : IndicatorSpec) (h : s ≠ k) :
    lookupC (insertC c s v) k = lookupC c k := by
  rw [lookupC_insertC, if_neg h]

theorem lookupC_entries_eq (c c2 : Cache) (h : c2.entries = c.entries)
    (k : IndicatorSpec) : lookupC c2 k = lookupC c k := by
  simp only [lookupC, h]

theorem ne_of_type_ne {s k : IndicatorSpec} (h : s.type ≠ k.type) : s ≠ k :=
  fun e => h (congrArg IndicatorSpec.type e)

theorem ne_of_params_ne {s k : IndicatorSpec} (h : s.params ≠ k.params) : s ≠ k :=
  fun e => h (congrArg IndicatorSpec.params e)

/-- The supertrend atomicity invariant: whenever the cache holds the
`SUPERTREND` line for some params, it holds the three sub-outputs for the
same params, all tagged with one computation id. -/
def STInv (c : Cache) : Prop :=
  ∀ ps : List Int, memC c ⟨.SUPERTREND, ps⟩ = true →
    ∃ id, lookupC c ⟨.SUPERTREND_DIRECTION, ps⟩ = some (id, 1) ∧
      lookupC c ⟨.SUPERTREND_UPPER, ps⟩ = some (id, 2) ∧
      lookupC c ⟨.SUPERTREND_LOWER, ps⟩ = some (id, 3)

theorem STInv_entries_eq (c c2 : Cache) (h : c2.entries = c.entries)
    (hinv : STInv c) : STInv c2 := by
  intro ps hm
  have hm' : memC c ⟨.SUPERTREND, ps⟩ = true := by
    rw [memC] at hm ⊢
    rw [lookupC_entries_eq c c2 h] at hm
    exact hm
  obtain ⟨id, h1, h2, h3⟩ := hinv ps hm'
  exact ⟨id, by rw [lookupC_entries_eq c c2 h]; exact h1,
    by rw [lookupC_entries_eq c c2 h]; exact h2,
    by rw [lookupC_entries_eq c c2 h]; exact h3⟩

theorem STInv_insert_other (c : Cache) (k : IndicatorSpec) (v : ℕ × ℕ)
    (h1 : k.type ≠ .SUPERTREND) (h2 : k.type ≠ .SUPERTREND_DIRECTION)
    (h3 : k.type ≠ .SUPERTREND_UPPER) (h4 : k.type ≠ .SUPERTREND_LOWER)
    (hinv : STInv c) : STInv (insertC c k v) := by
  intro ps hm
  have hm' : memC c ⟨.SUPERTREND, ps⟩ = true := by
    rw [memC, lookupC_insertC_ne c k v _ (ne_of_type_ne h1)] at hm
    exact hm
  obtain ⟨id, e1, e2, e3⟩ := hinv ps hm'
  exact ⟨id, by rw [lookupC_insertC_ne c k v _ (ne_of_type_ne h2)]; exact e1,
    by rw [lookupC_insertC_ne c k v _ (ne_of_type_ne h3)]; exact e2,
    by rw [lookupC_insertC_ne c k v _ (ne_of_type_ne h4)]; exact e3⟩

theorem lookupC_computeSupertrend (c : Cache) (ps : List Int) (k : IndicatorSpec) :
    lookupC (computeSupertrend c ps).1 k
      = if (⟨.SUPERTREND_LOWER, ps⟩ : IndicatorSpec) = k then some (c.nextId, 3)
        else if (⟨.SUPERTREND_UPPER, ps⟩ : IndicatorSpec) = k then some (c.nextId, 2)
        else if (⟨.SUPERTREND_DIRECTION, ps⟩ : IndicatorSpec) = k then some (c.nextId, 1)
        else lookupC c k := by
  simp only [computeSupertrend]
  rw [lookupC_insertC, lookupC_insertC, lookupC_insertC]
  rfl

theorem computeSupertrend_snd (c : Cache) (ps : List Int) :
    (computeSupertrend c ps).2 = (c.nextId, 0) := rfl

theorem memC_insertC_mono (c : Cache) (s : IndicatorSpec) (v : ℕ × ℕ)
    (k : IndicatorSpec) (h : memC c k = true) : memC (insertC c s v) k = true := by
  rw [memC, lookupC_insertC]
  rcases eq_or_ne s k with rfl | hne
  · simp
  · rw [if_neg hne]
    exact h

theorem memC_computeSupertrend_mono (c : Cache) (ps : List Int)
    (k : IndicatorSpec) (h : memC c k = true) :
    memC (computeSupertrend c ps).1 k = true := by
  rw [memC, lookupC_computeSupertrend]
  split_ifs <;> simp_all [memC]

theorem lookupC_logC (c : Cache) (s k : IndicatorSpec) :
    lookupC (logC c s) k = lookupC c k := rfl

theorem memC_logC (c : Cache) (s k : IndicatorSpec) :
    memC (logC c s) k = memC c k := rfl

theorem lookupC_freshC (c : Cache) (k : IndicatorSpec) :
    lookupC (freshC c).1 k = lookupC c k := rfl

theorem memC_freshC (c : Cache) (k : IndicatorSpec) :
    memC (freshC c).1 k = memC c k := rfl


theorem tne (t1 t2 : IndicatorType) (a b : List Int) (h : t1 = t2 → False) :
    (⟨t1, a⟩ : IndicatorSpec) ≠ ⟨t2, b⟩ :=
  fun e => h (congrArg IndicatorSpec.type e)

theorem pne (t : IndicatorType) (a b : List Int) (h : a = b → False) :
    (⟨t, a⟩ : IndicatorSpec) ≠ ⟨t, b⟩ :=
  fun e => h (congrArg IndicatorSpec.params e)


/-- Common endgame of a `_compute` step: the step did not touch the cache
entries (beyond bookkeeping) and the stored key is outside the supertrend
family, so the invariant and membership carry over through the final store. -/
theorem step_fresh (c : Cache) (s : IndicatorSpec) (v : ℕ × ℕ) (d : Cache)
    (hd : d.entries = c.entries)
    (h1 : s.type ≠ .SUPERTREND) (h2 : s.type ≠ .SUPERTREND_DIRECTION)
    (h3 : s.type ≠ .SUPERTREND_UPPER) (h4 : s.type ≠ .SUPERTREND_LOWER) :
    (STInv c → STInv (insertC d s v)) ∧
      ∀ k, memC c k = true → memC (insertC d s v) k = true := by
  constructor
  · intro hinv
    exact STInv_insert_other d s v h1 h2 h3 h4 (STInv_entries_eq c d hd hinv)
  · intro k hk
    refine memC_insertC_mono d s v k ?_
    rw [memC, lookupC_entries_eq c d hd]
    exact hk

/-- One iteration of the `ensure_computed` loop body: `_compute` followed by
the store `self._cache[spec] = batch` preserves the supertrend atomicity
invariant and never evicts a cached key. -/
theorem computeC_step (c : Cache) (s : IndicatorSpec) (c' : Cache) (v : ℕ × ℕ)
    (hc : computeC c s = some (c', v)) :
    (STInv c → STInv (insertC c' s v)) ∧
      ∀ k, memC c k = true → memC (insertC c' s v) k = true := by
  obtain ⟨t, ps⟩ := s
  cases t
  case SUPERTREND =>
    simp only [computeC] at hc
    rw [Option.some.injEq] at hc
    have h1 : (computeSupertrend (logC c ⟨.SUPERTREND, ps⟩) ps).1 = c' :=
      congrArg Prod.fst hc
    have h2 : (computeSupertrend (logC c ⟨.SUPERTREND, ps⟩) ps).2 = v :=
      congrArg Prod.snd hc
    subst h1
    subst h2
    constructor
    · intro hinv ps' hm'
      rcases eq_or_ne ps' ps with heq | hps
      · rw [heq] at hm' ⊢
        refine ⟨c.nextId, ?_, ?_, ?_⟩
        · rw [lookupC_insertC_ne _ _ _ _
              (tne .SUPERTREND .SUPERTREND_DIRECTION ps ps (fun h => nomatch h)),
            lookupC_computeSupertrend,
            if_neg (tne .SUPERTREND_LOWER .SUPERTREND_DIRECTION ps ps (fun h => nomatch h)),
            if_neg (tne .SUPERTREND_UPPER .SUPERTREND_DIRECTION ps ps (fun h => nomatch h)),
            if_pos rfl]
          rfl
        · rw [lookupC_insertC_ne _ _ _ _
              (tne .SUPERTREND .SUPERTREND_UPPER ps ps (fun h => nomatch h)),
            lookupC_computeSupertrend,
            if_neg (tne .SUPERTREND_LOWER .SUPERTREND_UPPER ps ps (fun h => nomatch h)),
            if_pos rfl]
          rfl
        · rw [lookupC_insertC_ne _ _ _ _
              (tne .SUPERTREND .SUPERTREND_LOWER ps ps (fun h => nomatch h)),
            lookupC_computeSupertrend, if_pos rfl]
          rfl
      · have hmem : memC c ⟨.SUPERTREND, ps'⟩ = true := by
          rw [memC, lookupC_insertC_ne _ _ _ _ (pne .SUPERTREND ps ps' (fun e => hps e.symm)),
            lookupC_computeSupertrend,
            if_neg (tne .SUPERTREND_LOWER .SUPERTREND ps ps' (fun h => nomatch h)),
            if_neg (tne .SUPERTREND_UPPER .SUPERTREND ps ps' (fun h => nomatch h)),
            if_neg (tne .SUPERTREND_DIRECTION .SUPERTREND ps ps' (fun h => nomatch h))] at hm'
          exact hm'
        obtain ⟨id2, f1, f2, f3⟩ := hinv ps' hmem
        refine ⟨id2, ?_, ?_, ?_⟩
        · rw [lookupC_insertC_ne _ _ _ _
              (tne .SUPERTREND .SUPERTREND_DIRECTION ps ps' (fun h => nomatch h)),
            lookupC_computeSupertrend,
            if_neg (tne .SUPERTREND_LOWER .SUPERTREND_DIRECTION ps ps' (fun h => nomatch h)),
            if_neg (tne .SUPERTREND_UPPER .SUPERTREND_DIRECTION ps ps' (fun h => nomatch h)),
            if_neg (pne .SUPERTREND_DIRECTION ps ps' (fun e => hps e.symm))]
          exact f1
        · rw [lookupC_insertC_ne _ _ _ _
              (tne .SUPERTREND .SUPERTREND_UPPER ps ps' (fun h => nomatch h)),
            lookupC_computeSupertrend,
            if_neg (tne .SUPERTREND_LOWER .SUPERTREND_UPPER ps ps' (fun h => nomatch h)),
            if_neg (pne .SUPERTREND_UPPER ps ps' (fun e => hps e.symm)),
            if_neg (tne .SUPERTREND_DIRECTION .SUPERTREND_UPPER ps ps' (fun h => nomatch h))]
          exact f2
        · rw [lookupC_insertC_ne _ _ _ _
              (tne .SUPERTREND .SUPERTREND_LOWER ps ps' (fun h => nomatch h)),
            lookupC_computeSupertrend,
            if_neg (pne .SUPERTREND_LOWER ps ps' (fun e => hps e.symm)),
            if_neg (tne .SUPERTREND_UPPER .SUPERTREND_LOWER ps ps' (fun h => nomatch h)),
            if_neg (tne .SUPERTREND_DIRECTION .SUPERTREND_LOWER ps ps' (fun h => nomatch h))]
          exact f3
    · intro k hk
      exact memC_insertC_mono _ _ _ k (memC_computeSupertrend_mono _ _ k hk)
  case SUPERTREND_DIRECTION =>
    simp only [computeC, memC_logC, lookupC_logC] at hc
    split at hc
    next hb =>
      rcases hl : lookupC c ⟨.SUPERTREND_DIRECTION, ps⟩ with _ | w
      · rw [hl, Option.map_none'] at hc
        exact Option.noConfusion hc
      · rw [hl, Option.map_some', Option.some.injEq, Prod.mk.injEq] at hc
        obtain ⟨h1, h2⟩ := hc
        subst h1
        subst h2
        constructor
        · intro hinv
          obtain ⟨id, e1, e2, e3⟩ := hinv ps hb
          have hw : w = (id, 1) := by
            rw [hl] at e1
            exact Option.some.inj e1
          subst hw
          intro ps' hm'
          rcases eq_or_ne ps' ps with heq | hps
          · rw [heq] at hm' ⊢
            refine ⟨id, ?_, ?_, ?_⟩
            · rw [lookupC_insertC_self]
            · rw [lookupC_insertC_ne _ _ _ _
                  (tne .SUPERTREND_DIRECTION .SUPERTREND_UPPER ps ps (fun h => nomatch h))]
              exact e2
            · rw [lookupC_insertC_ne _ _ _ _
                  (tne .SUPERTREND_DIRECTION .SUPERTREND_LOWER ps ps (fun h => nomatch h))]
              exact e3
          · have hmem : memC c ⟨.SUPERTREND, ps'⟩ = true := by
              rw [memC, lookupC_insertC_ne _ _ _ _
                (tne .SUPERTREND_DIRECTION .SUPERTREND ps ps' (fun h => nomatch h))] at hm'
              exact hm'
            obtain ⟨id2, f1, f2, f3⟩ := hinv ps' hmem
            refine ⟨id2, ?_, ?_, ?_⟩
            · rw [lookupC_insertC_ne _ _ _ _
                (pne .SUPERTREND_DIRECTION ps ps' (fun e => hps e.symm))]
              exact f1
            · rw [lookupC_insertC_ne _ _ _ _
                (tne .SUPERTREND_DIRECTION .SUPERTREND_UPPER ps ps' (fun h => nomatch h))]
              exact f2
            · rw [lookupC_insertC_ne _ _ _ _
                (tne .SUPERTREND_DIRECTION .SUPERTREND_LOWER ps ps' (fun h => nomatch h))]
              exact f3
        · intro k hk
          exact memC_insertC_mono _ _ _ k hk
    next hb =>
      rw [lookupC_computeSupertrend,
        if_neg (tne .SUPERTREND_LOWER .SUPERTREND_DIRECTION ps ps (fun h => nomatch h)),
        if_neg (tne .SUPERTREND_UPPER .SUPERTREND_DIRECTION ps ps (fun h => nomatch h)),
        if_pos rfl, Option.map_some', Option.some.injEq, Prod.mk.injEq] at hc
      obtain ⟨h1, h2⟩ := hc
      subst h1
      subst h2
      constructor
      · intro hinv ps' hm'
        have hmem : memC c ⟨.SUPERTREND, ps'⟩ = true := by
          rw [memC, lookupC_insertC_ne _ _ _ _
              (tne .SUPERTREND_DIRECTION .SUPERTREND ps ps' (fun h => nomatch h)),
            lookupC_computeSupertrend,
            if_neg (tne .SUPERTREND_LOWER .SUPERTREND ps ps' (fun h => nomatch h)),
            if_neg (tne .SUPERTREND_UPPER .SUPERTREND ps ps' (fun h => nomatch h)),
            if_neg (tne .SUPERTREND_DIRECTION .SUPERTREND ps ps' (fun h => nomatch h))] at hm'
          exact hm'
        rcases eq_or_ne ps' ps with heq | hps
        · rw [heq] at hmem
          exact absurd hmem hb
        · obtain ⟨id2, f1, f2, f3⟩ := hinv ps' hmem
          refine ⟨id2, ?_, ?_, ?_⟩
          · rw [lookupC_insertC_ne _ _ _ _
                (pne .SUPERTREND_DIRECTION ps ps' (fun e => hps e.symm)),
              lookupC_computeSupertrend,
              if_neg (tne .SUPERTREND_LOWER .SUPERTREND_DIRECTION ps ps' (fun h => nomatch h)),
              if_neg (tne .SUPERTREND_UPPER .SUPERTREND_DIRECTION ps ps' (fun h => nomatch h)),
              if_neg (pne .SUPERTREND_DIRECTION ps ps' (fun e => hps e.symm))]
            exact f1
          · rw [lookupC_insertC_ne _ _ _ _
                (tne .SUPERTREND_DIRECTION .SUPERTREND_UPPER ps ps' (fun h => nomatch h)),
              lookupC_computeSupertrend,
              if_neg (tne .SUPERTREND_LOWER .SUPERTREND_UPPER ps ps' (fun h => nomatch h)),
              if_neg (pne .SUPERTREND_UPPER ps ps' (fun e => hps e.symm)),
              if_neg (tne .SUPERTREND_DIRECTION .SUPERTREND_UPPER ps ps' (fun h => nomatch h))]
            exact f2
          · rw [lookupC_insertC_ne _ _ _ _
                (tne .SUPERTREND_DIRECTION .SUPERTREND_LOWER ps ps' (fun h => nomatch h)),
              lookupC_computeSupertrend,
              if_neg (pne .SUPERTREND_LOWER ps ps' (fun e => hps e.symm)),
              if_neg (tne .SUPERTREND_UPPER .SUPERTREND_LOWER ps ps' (fun h => nomatch h)),
              if_neg (tne .SUPERTREND_DIRECTION .SUPERTREND_LOWER ps ps' (fun h => nomatch h))]
            exact f3
      · intro k hk
        exact memC_insertC_mono _ _ _ k (memC_computeSupertrend_mono _ _ k hk)
  case SUPERTREND_UPPER =>
    simp only [computeC, memC_logC, lookupC_logC] at hc
    split at hc
    next hb =>
      rcases hl : lookupC c ⟨.SUPERTREND_UPPER, ps⟩ with _ | w
      · rw [hl, Option.map_none'] at hc
        exact Option.noConfusion hc
      · rw [hl, Option.map_some', Option.some.injEq, Prod.mk.injEq] at hc
        obtain ⟨h1, h2⟩ := hc
        subst h1
        subst h2
        constructor
        · intro hinv
          obtain ⟨id, e1, e2, e3⟩ := hinv ps hb
          have hw : w = (id, 2) := by
            rw [hl] at e2
            exact Option.some.inj e2
          subst hw
          intro ps' hm'
          rcases eq_or_ne ps' ps with heq | hps
          · rw [heq] at hm' ⊢
            refine ⟨id, ?_, ?_, ?_⟩
            · rw [lookupC_insertC_ne _ _ _ _
                  (tne .SUPERTREND_UPPER .SUPERTREND_DIRECTION ps ps (fun h => nomatch h))]
              exact e1
            · rw [lookupC_insertC_self]
            · rw [lookupC_insertC_ne _ _ _ _
                  (tne .SUPERTREND_UPPER .SUPERTREND_LOWER ps ps (fun h => nomatch h))]
              exact e3
          · have hmem : memC c ⟨.SUPERTREND, ps'⟩ = true := by
              rw [memC, lookupC_insertC_ne _ _ _ _
                (tne .SUPERTREND_UPPER .SUPERTREND ps ps' (fun h => nomatch h))] at hm'
              exact hm'
            obtain ⟨id2, f1, f2, f3⟩ := hinv ps' hmem
            refine ⟨id2, ?_, ?_, ?_⟩
            · rw [lookupC_insertC_ne _ _ _ _
                (tne .SUPERTREND_UPPER .SUPERTREND_DIRECTION ps ps' (fun h => nomatch h))]
              exact f1
            · rw [lookupC_insertC_ne _ _ _ _
                (pne .SUPERTREND_UPPER ps ps' (fun e => hps e.symm))]
              exact f2
            · rw [lookupC_insertC_ne _ _ _ _
                (tne .SUPERTREND_UPPER .SUPERTREND_LOWER ps ps' (fun h => nomatch h))]
              exact f3
        · intro k hk
          exact memC_insertC_mono _ _ _ k hk
    next hb =>
      rw [lookupC_computeSupertrend,
        if_neg (tne .SUPERTREND_LOWER .SUPERTREND_UPPER ps ps (fun h => nomatch h)),
        if_pos rfl, Option.map_some', Option.some.injEq, Prod.mk.injEq] at hc
      obtain ⟨h1, h2⟩ := hc
      subst h1
      subst h2
      constructor
      · intro hinv ps' hm'
        have hmem : memC c ⟨.SUPERTREND, ps'⟩ = true := by
          rw [memC, lookupC_insertC_ne _ _ _ _
              (tne .SUPERTREND_UPPER .SUPERTREND ps ps' (fun h => nomatch h)),
            lookupC_computeSupertrend,
            if_neg (tne .SUPERTREND_LOWER .SUPERTREND ps ps' (fun h => nomatch h)),
            if_neg (tne .SUPERTREND_UPPER .SUPERTREND ps ps' (fun h => nomatch h)),
            if_neg (tne .SUPERTREND_DIRECTION .SUPERTREND ps ps' (fun h => nomatch h))] at hm'
          exact hm'
        rcases eq_or_ne ps' ps with heq | hps
        · rw [heq] at hmem
          exact absurd hmem hb
        · obtain ⟨id2, f1, f2, f3⟩ := hinv ps' hmem
          refine ⟨id2, ?_, ?_, ?_⟩
          · rw [lookupC_insertC_ne _ _ _ _
                (tne .SUPERTREND_UPPER .SUPERTREND_DIRECTION ps ps' (fun h => nomatch h)),
              lookupC_computeSupertrend,
              if_neg (tne .SUPERTREND_LOWER .SUPERTREND_DIRECTION ps ps' (fun h => nomatch h)),
              if_neg (tne .SUPERTREND_UPPER .SUPERTREND_DIRECTION ps ps' (fun h => nomatch h)),
              if_neg (pne .SUPERTREND_DIRECTION ps ps' (fun e => hps e.symm))]
            exact f1
          · rw [lookupC_insertC_ne _ _ _ _
                (pne .SUPERTREND_UPPER ps ps' (fun e => hps e.symm)),
              lookupC_computeSupertrend,
              if_neg (tne .SUPERTREND_LOWER .SUPERTREND_UPPER ps ps' (fun h => nomatch h)),
              if_neg (pne .SUPERTREND_UPPER ps ps' (fun e => hps e.symm)),
              if_neg (tne .SUPERTREND_DIRECTION .SUPERTREND_UPPER ps ps' (fun h => nomatch h))]
            exact f2
          · rw [lookupC_insertC_ne _ _ _ _
                (tne .SUPERTREND_UPPER .SUPERTREND_LOWER ps ps' (fun h => nomatch h)),
              lookupC_computeSupertrend,
              if_neg (pne .SUPERTREND_LOWER ps ps' (fun e => hps e.symm)),
              if_neg (tne .SUPERTREND_UPPER .SUPERTREND_LOWER ps ps' (fun h => nomatch h)),
              if_neg (tne .SUPERTREND_DIRECTION .SUPERTREND_LOWER ps ps' (fun h => nomatch h))]
            exact f3
      · intro k hk
        exact memC_insertC_mono _ _ _ k (memC_computeSupertrend_mono _ _ k hk)
  case SUPERTREND_LOWER =>
    simp only [computeC, memC_logC, lookupC_logC] at hc
    split at hc
    next hb =>
      rcases hl : lookupC c ⟨.SUPERTREND_LOWER, ps⟩ with _ | w
      · rw [hl, Option.map_none'] at hc
        exact Option.noConfusion hc
      · rw [hl, Option.map_some', Option.some.injEq, Prod.mk.injEq] at hc
        obtain ⟨h1, h2⟩ := hc
        subst h1
        subst h2
        constructor
        · intro hinv
          obtain ⟨id, e1, e2, e3⟩ := hinv ps hb
          have hw : w = (id, 3) := by
            rw [hl] at e3
            exact Option.some.inj e3
          subst hw
          intro ps' hm'
          rcases eq_or_ne ps' ps with heq | hps
          · rw [heq] at hm' ⊢
            refine ⟨id, ?_, ?_, ?_⟩
            · rw [lookupC_insertC_ne _ _ _ _
                  (tne .SUPERTREND_LOWER .SUPERTREND_DIRECTION ps ps (fun h => nomatch h))]
              exact e1
            · rw [lookupC_insertC_ne _ _ _ _
                  (tne .SUPERTREND_LOWER .SUPERTREND_UPPER ps ps (fun h => nomatch h))]
              exact e2
            · rw [lookupC_insertC_self]
          · have hmem : memC c ⟨.SUPERTREND, ps'⟩ = true := by
              rw [memC, lookupC_insertC_ne _ _ _ _
                (tne .SUPERTREND_LOWER .SUPERTREND ps ps' (fun h => nomatch h))] at hm'
              exact hm'
            obtain ⟨id2, f1, f2, f3⟩ := hinv ps' hmem
            refine ⟨id2, ?_, ?_, ?_⟩
            · rw [lookupC_insertC_ne _ _ _ _
                (tne .SUPERTREND_LOWER .SUPERTREND_DIRECTION ps ps' (fun h => nomatch h))]
              exact f1
            · rw [lookupC_insertC_ne _ _ _ _
                (tne .SUPERTREND_LOWER .SUPERTREND_UPPER ps ps' (fun h => nomatch h))]
              exact f2
            · rw [lookupC_insertC_ne _ _ _ _
                (pne .SUPERTREND_LOWER ps ps' (fun e => hps e.symm))]
              exact f3
        · intro k hk
          exact memC_insertC_mono _ _ _ k hk
    next hb =>
      rw [lookupC_computeSupertrend, if_pos rfl, Option.map_some',
        Option.some.injEq, Prod.mk.injEq] at hc
      obtain ⟨h1, h2⟩ := hc
      subst h1
      subst h2
      constructor
      · intro hinv ps' hm'
        have hmem : memC c ⟨.SUPERTREND, ps'⟩ = true := by
          rw [memC, lookupC_insertC_ne _ _ _ _
              (tne .SUPERTREND_LOWER .SUPERTREND ps ps' (fun h => nomatch h)),
            lookupC_computeSupertrend,
            if_neg (tne .SUPERTREND_LOWER .SUPERTREND ps ps' (fun h => nomatch h)),
            if_neg (tne .SUPERTREND_UPPER .SUPERTREND ps ps' (fun h => nomatch h)),
            if_neg (tne .SUPERTREND_DIRECTION .SUPERTREND ps ps' (fun h => nomatch h))] at hm'
          exact hm'
        rcases eq_or_ne ps' ps with heq | hps
        · rw [heq] at hmem
          exact absurd hmem hb
        · obtain ⟨id2, f1, f2, f3⟩ := hinv ps' hmem
          refine ⟨id2, ?_, ?_, ?_⟩
          · rw [lookupC_insertC_ne _ _ _ _
                (tne .SUPERTREND_LOWER .SUPERTREND_DIRECTION ps ps' (fun h => nomatch h)),
              lookupC_computeSupertrend,
              if_neg (tne .SUPERTREND_LOWER .SUPERTREND_DIRECTION ps ps' (fun h => nomatch h)),
              if_neg (tne .SUPERTREND_UPPER .SUPERTREND_DIRECTION ps ps' (fun h => nomatch h)),
              if_neg (pne .SUPERTREND_DIRECTION ps ps' (fun e => hps e.symm))]
            exact f1
          · rw [lookupC_insertC_ne _ _ _ _
                (tne .SUPERTREND_LOWER .SUPERTREND_UPPER ps ps' (fun h => nomatch h)),
              lookupC_computeSupertrend,
              if_neg (tne .SUPERTREND_LOWER .SUPERTREND_UPPER ps ps' (fun h => nomatch h)),
              if_neg (pne .SUPERTREND_UPPER ps ps' (fun e => hps e.symm)),
              if_neg (tne .SUPERTREND_DIRECTION .SUPERTREND_UPPER ps ps' (fun h => nomatch h))]
            exact f2
          · rw [lookupC_insertC_ne _ _ _ _
                (pne .SUPERTREND_LOWER ps ps' (fun e => hps e.symm)),
              lookupC_computeSupertrend,
              if_neg (pne .SUPERTREND_LOWER ps ps' (fun e => hps e.symm)),
              if_neg (tne .SUPERTREND_UPPER .SUPERTREND_LOWER ps ps' (fun h => nomatch h)),
              if_neg (tne .SUPERTREND_DIRECTION .SUPERTREND_LOWER ps ps' (fun h => nomatch h))]
            exact f3
      · intro k hk
        exact memC_insertC_mono _ _ _ k (memC_computeSupertrend_mono _ _ k hk)
  case ATR_WILDER =>
    simp only [computeC, memC_logC, lookupC_logC] at hc
    split at hc
    next hb =>
      rw [Option.some.injEq, Prod.mk.injEq] at hc
      obtain ⟨h1, h2⟩ := hc
      subst h1
      subst h2
      refine step_fresh c _ _ _ rfl ?_ ?_ ?_ ?_ <;> exact fun h => nomatch h
    next hb =>
      rw [Option.some.injEq, Prod.mk.injEq] at hc
      obtain ⟨h1, h2⟩ := hc
      subst h1
      subst h2
      constructor
      · intro hinv
        refine STInv_insert_other _ _ _ ?_ ?_ ?_ ?_ ?_
        · exact fun h => nomatch h
        · exact fun h => nomatch h
        · exact fun h => nomatch h
        · exact fun h => nomatch h
        · refine STInv_entries_eq (insertC c ⟨.TRUE_RANGE, []⟩ (c.nextId, 0)) _ rfl ?_
          refine STInv_insert_other _ _ _ ?_ ?_ ?_ ?_ hinv <;> exact fun h => nomatch h
      · intro k hk
        exact memC_insertC_mono _ _ _ k (memC_insertC_mono c _ _ k hk)
  case DMI_PLUS =>
    simp only [computeC, memC_logC, lookupC_logC] at hc
    rw [Option.some.injEq, Prod.mk.injEq] at hc
    obtain ⟨h1, h2⟩ := hc
    subst h1
    subst h2
    constructor
    · intro hinv
      refine STInv_insert_other _ _ _ ?_ ?_ ?_ ?_ ?_
      · exact fun h => nomatch h
      · exact fun h => nomatch h
      · exact fun h => nomatch h
      · exact fun h => nomatch h
      · refine STInv_entries_eq (insertC c ⟨.DMI_MINUS, [ps.getD 0 0]⟩ (c.nextId, 1)) _ rfl ?_
        refine STInv_insert_other _ _ _ ?_ ?_ ?_ ?_ hinv <;> exact fun h => nomatch h
    · intro k hk
      exact memC_insertC_mono _ _ _ k (memC_insertC_mono c _ _ k hk)
  case BOLLINGER_MIDDLE =>
    simp only [computeC, memC_logC, lookupC_logC] at hc
    split at hc <;>
      (rw [Option.some.injEq, Prod.mk.injEq] at hc
       obtain ⟨h1, h2⟩ := hc
       subst h1
       subst h2
       refine step_fresh c _ _ _ rfl ?_ ?_ ?_ ?_ <;> exact fun h => nomatch h)
  case DMI_MINUS =>
    simp only [computeC, memC_logC, lookupC_logC] at hc
    split at hc <;>
      (rw [Option.some.injEq, Prod.mk.injEq] at hc
       obtain ⟨h1, h2⟩ := hc
       subst h1
       subst h2
       refine step_fresh c _ _ _ rfl ?_ ?_ ?_ ?_ <;> exact fun h => nomatch h)
  case MACD_SIGNAL =>
    simp only [computeC, memC_logC, lookupC_logC] at hc
    rcases hl : lookupC c ⟨.MACD_LINE, [ps.getD 0 0, ps.getD 1 0]⟩ with _ | w
    · rw [hl, Option.map_none'] at hc
      exact Option.noConfusion hc
    · rw [hl, Option.map_some', Option.some.injEq, Prod.mk.injEq] at hc
      obtain ⟨h1, h2⟩ := hc
      subst h1
      subst h2
      refine step_fresh c _ _ _ rfl ?_ ?_ ?_ ?_ <;> exact fun h => nomatch h
  case STOCHASTIC_D =>
    simp only [computeC, memC_logC, lookupC_logC] at hc
    rcases hl : lookupC c ⟨.STOCHASTIC_K, [ps.getD 0 0]⟩ with _ | w
    · rw [hl, Option.map_none'] at hc
      exact Option.noConfusion hc
    · rw [hl, Option.map_some', Option.some.injEq, Prod.mk.injEq] at hc
      obtain ⟨h1, h2⟩ := hc
      subst h1
      subst h2
      refine step_fresh c _ _ _ rfl ?_ ?_ ?_ ?_ <;> exact fun h => nomatch h
  case KELTNER_MIDDLE =>
    simp only [computeC, memC_logC, lookupC_logC] at hc
    rcases hl : lookupC c ⟨.EMA, [ps.getD 0 0]⟩ with _ | w
    · rw [hl, Option.map_none'] at hc
      exact Option.noConfusion hc
    · rw [hl, Option.map_some', Option.some.injEq, Prod.mk.injEq] at hc
      obtain ⟨h1, h2⟩ := hc
      subst h1
      subst h2
      refine step_fresh c _ _ _ rfl ?_ ?_ ?_ ?_ <;> exact fun h => nomatch h
  case BOLLINGER_BANDWIDTH =>
    exact absurd hc (by simp [computeC])
  all_goals
    simp only [computeC, memC_logC, lookupC_logC] at hc
  all_goals
    first
    | (rw [Option.some.injEq, Prod.mk.injEq] at hc
       obtain ⟨h1, h2⟩ := hc)
    | (simp only [Option.bind_eq_some, Option.map_eq_some', Prod.mk.injEq] at hc
       first
       | obtain ⟨w1, hw1, w2, hw2, h1, h2⟩ := hc
       | obtain ⟨w1, hw1, h1, h2⟩ := hc)
  all_goals
    subst h1
  all_goals
    subst h2
  all_goals
    refine step_fresh c _ _ _ rfl ?_ ?_ ?_ ?_ <;> exact fun h => nomatch h

/-- Properties of the `ensure_computed` per-spec loop: the supertrend
invariant is preserved, no cached key is lost, and every spec of the sorted
order ends up cached. -/
theorem ensureLoop_props : ∀ (l : List IndicatorSpec) (c c' : Cache),
    ensureLoop c l = some c' →
    (STInv c → STInv c') ∧ (∀ k, memC c k = true → memC c' k = true) ∧
      ∀ s ∈ l, memC c' s = true
  | [], c, c', hc => by
    simp only [ensureLoop, Option.some.injEq] at hc
    subst hc
    exact ⟨fun h => h, fun k hk => hk, by simp⟩
  | s :: rest, c, c', hc => by
    simp only [ensureLoop] at hc
    by_cases hb : memC c s = true
    · rw [if_pos hb] at hc
      obtain ⟨hi, hmono, hall⟩ := ensureLoop_props rest c c' hc
      refine ⟨hi, hmono, fun x hx => ?_⟩
      rcases List.mem_cons.1 hx with heq | hx'
      · rw [heq]
        exact hmono s hb
      · exact hall x hx'
    · rw [if_neg hb] at hc
      rcases hcc : computeC c s with _ | p
      · simp only [hcc] at hc
        exact Option.noConfusion hc
      · simp only [hcc] at hc
        obtain ⟨hstep1, hstep2⟩ := computeC_step c s p.1 p.2 (by rw [hcc])
        obtain ⟨hi, hmono, hall⟩ := ensureLoop_props rest (insertC p.1 s p.2) c' hc
        refine ⟨fun hinv => hi (hstep1 hinv), fun k hk => hmono k (hstep2 k hk),
          fun x hx => ?_⟩
        rcases List.mem_cons.1 hx with heq | hx'
        · rw [heq]
          refine hmono s ?_
          rw [memC, lookupC_insertC_self]
          rfl
        · exact hall x hx'

/-- The loop skips every spec that is already cached: if everything is
cached the cache object is returned unchanged. -/
theorem ensureLoop_skip : ∀ (l : List IndicatorSpec) (c : Cache),
    (∀ s ∈ l, memC c s = true) → ensureLoop c l = some c
  | [], _, _ => rfl
  | s :: rest, c, h => by
    simp only [ensureLoop]
    rw [if_pos (h s (List.mem_cons_self s rest))]
    exact ensureLoop_skip rest c fun x hx => h x (List.mem_cons_of_mem s hx)

/-- Properties of one `ensure_computed` call on a duplicate-free request
set: invariant preservation, cache monotonicity, and population of every
requested spec. -/
theorem ensureComputed_props (c c' : Cache) (specs : List IndicatorSpec)
    (hN : specs.Nodup) (hc : ensureComputed c specs = some c') :
    (STInv c → STInv c') ∧ (∀ k, memC c k = true → memC c' k = true) ∧
      ∀ s ∈ specs, memC c' s = true := by
  obtain ⟨out, hout, hiff, hnd, hord⟩ := topologicalSort_spec specs hN
  simp only [ensureComputed, hout] at hc
  obtain ⟨hi, hmono, hall⟩ := ensureLoop_props out c c' hc
  exact ⟨hi, hmono, fun s hs =>
    hall s ((hiff s).mpr ((expandDependencies_spec specs hN).1 s hs))⟩

/-- Properties of a sequence of `ensure_computed` calls against one cache
instance. -/
theorem ensureSeq_props : ∀ (calls : List (List IndicatorSpec)) (c c' : Cache),
    (∀ l ∈ calls, l.Nodup) → ensureSeq c calls = some c' →
    (STInv c → STInv c') ∧ (∀ k, memC c k = true → memC c' k = true) ∧
      ∀ l ∈ calls, ∀ s ∈ l, memC c' s = true
  | [], c, c', _, hc => by
    simp only [ensureSeq, Option.some.injEq] at hc
    subst hc
    exact ⟨fun h => h, fun k hk => hk, by simp⟩
  | specs :: more, c, c', hN, hc => by
    simp only [ensureSeq] at hc
    rcases hcc : ensureComputed c specs with _ | c1
    · simp only [hcc] at hc
      exact Option.noConfusion hc
    · simp only [hcc] at hc
      obtain ⟨hi1, hm1, ha1⟩ :=
        ensureComputed_props c c1 specs (hN specs (List.mem_cons_self specs more)) hcc
      obtain ⟨hi2, hm2, ha2⟩ :=
        ensureSeq_props more c1 c' (fun l hl => hN l (List.mem_cons_of_mem specs hl)) hc
      refine ⟨fun h => hi2 (hi1 h), fun k hk => hm2 k (hm1 k hk), ?_⟩
      intro l hl s hs
      rcases List.mem_cons.1 hl with heq | hl'
      · rw [heq] at hs
        exact hm2 s (ha1 s hs)
      · exact ha2 l hl' s hs

/-- The fresh cache satisfies the supertrend atomicity invariant. -/
theorem STInv_cacheInit : STInv cacheInit := by
  intro ps hm
  simp [memC, lookupC, cacheInit] at hm

/-- C6 (counterexample to the unqualified claim): with one fresh cache,
`ensure_computed([SUPERTREND_DIRECTION(10,300)])` runs the supertrend
computation once (ghost log count 1) and caches the direction as component 1
of computation id 0; a following `ensure_computed([SUPERTREND(10,300)])`
finds the `SUPERTREND` key itself absent — the direction branch of
`_compute` never stores it — so it reruns the supertrend computation (log
count 2) and **overwrites** the already-present `SUPERTREND_DIRECTION` entry
with component 1 of the new computation id 3.  An identifier already present
in the cache is thus recomputed and overwritten by a later overlapping
call. -/
theorem ensure_computed_recompute_counterexample :
    (ensureSeq cacheInit [[⟨.SUPERTREND_DIRECTION, [10, 300]⟩]]).map
        (fun c => (c.log.count ⟨.SUPERTREND, [10, 300]⟩,
          lookupC c ⟨.SUPERTREND_DIRECTION, [10, 300]⟩))
      = some (1, some (0, 1)) ∧
    (ensureSeq cacheInit [[⟨.SUPERTREND_DIRECTION, [10, 300]⟩],
        [⟨.SUPERTREND, [10, 300]⟩]]).map
        (fun c => (c.log.count ⟨.SUPERTREND, [10, 300]⟩,
          lookupC c ⟨.SUPERTREND_DIRECTION, [10, 300]⟩))
      = some (2, some (3, 1)) := by
  constructor <;> decide

/-- C6 (amended): repeating an `ensure_computed` call with the **same**
request set is a no-op — every spec of the sorted order is already cached
after the first call, the per-spec loop's `spec not in self._cache` guard
skips each of them, and the cache object is returned unchanged, with no
recomputation.  (The unqualified claim, that an identifier already in the
cache is never recomputed or overwritten by any overlapping later call, is
refuted by the supertrend direction/line interleaving.) -/
theorem ensure_computed_idempotent (c c' : Cache) (specs : List IndicatorSpec)
    (hN : specs.Nodup) (hc : ensureComputed c specs = some c') :
    ensureComputed c' specs = some c' := by
  obtain ⟨out, hout, hiff, hnd, hord⟩ := topologicalSort_spec specs hN
  simp only [ensureComputed, hout] at hc ⊢
  obtain ⟨_, _, hall⟩ := ensureLoop_props out c c' hc
  exact ensureLoop_skip out c' hall

/-- Witness for the amended C6 on `specs = [EMA(20)]` from a fresh cache. -/
theorem ensure_computed_idempotent_witness :
    ([⟨.EMA, [20]⟩] : List IndicatorSpec).Nodup ∧
    ensureComputed cacheInit [⟨.EMA, [20]⟩]
      = some ⟨[(⟨.EMA, [20]⟩, (0, 0))], 1, [⟨.EMA, [20]⟩]⟩ ∧
    ensureComputed ⟨[(⟨.EMA, [20]⟩, (0, 0))], 1, [⟨.EMA, [20]⟩]⟩ [⟨.EMA, [20]⟩]
      = some ⟨[(⟨.EMA, [20]⟩, (0, 0))], 1, [⟨.EMA, [20]⟩]⟩ :=
  ⟨by decide, by decide,
    ensure_computed_idempotent cacheInit _ [⟨.EMA, [20]⟩] (by decide) (by decide)⟩

/-- C7: after any successful sequence of `ensure_computed` calls on one
fresh cache instance in which some call requests the `SUPERTREND` line for
params `ps`, the cache also holds `SUPERTREND_DIRECTION`, `SUPERTREND_UPPER`
and `SUPERTREND_LOWER` entries for the same `ps`, and all three carry the
same computation id — they came from the one underlying kernel run — so a
later `get` (a pure dictionary lookup that never computes) succeeds on each
sub-output. -/
theorem supertrend_subproducts_cached (calls : List (List IndicatorSpec))
    (c' : Cache) (ps : List Int)
    (hN : ∀ l ∈ calls, l.Nodup)
    (hc : ensureSeq cacheInit calls = some c')
    (hst : ∃ l ∈ calls, (⟨.SUPERTREND, ps⟩ : IndicatorSpec) ∈ l) :
    ∃ id, getC c' ⟨.SUPERTREND_DIRECTION, ps⟩ = some (id, 1) ∧
      getC c' ⟨.SUPERTREND_UPPER, ps⟩ = some (id, 2) ∧
      getC c' ⟨.SUPERTREND_LOWER, ps⟩ = some (id, 3) := by
  obtain ⟨hi, hm, ha⟩ := ensureSeq_props calls cacheInit c' hN hc
  obtain ⟨l, hl, hsl⟩ := hst
  exact hi STInv_cacheInit ps (ha l hl _ hsl)

/-- Witness for C7: one call `ensure_computed([SUPERTREND(10,300)])` from a
fresh cache; the three sub-outputs are present with the shared id 2. -/
theorem supertrend_subproducts_cached_witness :
    (∀ l ∈ [[(⟨.SUPERTREND, [10, 300]⟩ : IndicatorSpec)]], l.Nodup) ∧
    ensureSeq cacheInit [[⟨.SUPERTREND, [10, 300]⟩]]
      = some ⟨[(⟨.SUPERTREND, [10, 300]⟩, (2, 0)),
          (⟨.SUPERTREND_LOWER, [10, 300]⟩, (2, 3)),
          (⟨.SUPERTREND_UPPER, [10, 300]⟩, (2, 2)),
          (⟨.SUPERTREND_DIRECTION, [10, 300]⟩, (2, 1)),
          (⟨.ATR_WILDER, [10]⟩, (1, 0)), (⟨.TRUE_RANGE, []⟩, (0, 0))], 3,
          [⟨.TRUE_RANGE, []⟩, ⟨.ATR_WILDER, [10]⟩, ⟨.SUPERTREND, [10, 300]⟩]⟩ ∧
    (∃ l ∈ [[(⟨.SUPERTREND, [10, 300]⟩ : IndicatorSpec)]],
      (⟨.SUPERTREND, [10, 300]⟩ : IndicatorSpec) ∈ l) ∧
    ∃ id,
      getC ⟨[(⟨.SUPERTREND, [10, 300]⟩, (2, 0)),
          (⟨.SUPERTREND_LOWER, [10, 300]⟩, (2, 3)),
          (⟨.SUPERTREND_UPPER, [10, 300]⟩, (2, 2)),
          (⟨.SUPERTREND_DIRECTION, [10, 300]⟩, (2, 1)),
          (⟨.ATR_WILDER, [10]⟩, (1, 0)), (⟨.TRUE_RANGE, []⟩, (0, 0))], 3,
          [⟨.TRUE_RANGE, []⟩, ⟨.ATR_WILDER, [10]⟩, ⟨.SUPERTREND, [10, 300]⟩]⟩
        ⟨.SUPERTREND_DIRECTION, [10, 300]⟩ = some (id, 1) ∧
      getC ⟨[(⟨.SUPERTREND, [10, 300]⟩, (2, 0)),
          (⟨.SUPERTREND_LOWER, [10, 300]⟩, (2, 3)),
          (⟨.SUPERTREND_UPPER, [10, 300]⟩, (2, 2)),
          (⟨.SUPERTREND_DIRECTION, [10, 300]⟩, (2, 1)),
          (⟨.ATR_WILDER, [10]⟩, (1, 0)), (⟨.TRUE_RANGE, []⟩, (0, 0))], 3,
          [⟨.TRUE_RANGE, []⟩, ⟨.ATR_WILDER, [10]⟩, ⟨.SUPERTREND, [10, 300]⟩]⟩
        ⟨.SUPERTREND_UPPER, [10, 300]⟩ = some (id, 2) ∧
      getC ⟨[(⟨.SUPERTREND, [10, 300]⟩, (2, 0)),
          (⟨.SUPERTREND_LOWER, [10, 300]⟩, (2, 3)),
          (⟨.SUPERTREND_UPPER, [10, 300]⟩, (2, 2)),
          (⟨.SUPERTREND_DIRECTION, [10, 300]⟩, (2, 1)),
          (⟨.ATR_WILDER, [10]⟩, (1, 0)), (⟨.TRUE_RANGE, []⟩, (0, 0))], 3,
          [⟨.TRUE_RANGE, []⟩, ⟨.ATR_WILDER, [10]⟩, ⟨.SUPERTREND, [10, 300]⟩]⟩
        ⟨.SUPERTREND_LOWER, [10, 300]⟩ = some (id, 3) :=
  ⟨by decide, by decide, by decide,
    supertrend_subproducts_cached [[⟨.SUPERTREND, [10, 300]⟩]] _ [10, 300]
      (by decide) (by decide) (by decide)⟩

/-- C10: for every strategy family name outside the known set and every
configuration list, `compute_signals_batched` collects no indicator specs,
leaves the cache unchanged, raises no error, and falls through every
`elif` to return all-`False` entry/exit matrices of shape
`[numConfigs, numBars]`. -/
theorem unknown_strategy_all_false {Config : Type}
    (collectImpl : String → List Config → List IndicatorSpec)
    (signalImpl : String → List Config → Cache → List (List Bool) × List (List Bool))
    (stype : String) (configs : List Config) (cache : Cache) (numBars : ℕ)
    (h : stype ∉ knownStrategyTypes) :
    computeSignalsBatched collectImpl signalImpl stype configs cache numBars
      = some (cache,
        (List.replicate configs.length (List.replicate numBars false),
         List.replicate configs.length (List.replicate numBars false))) := by
  have hcol : collectStrategyIndicators collectImpl stype configs = [] := by
    rw [collectStrategyIndicators, if_neg h]
  have hens : ensureComputed cache ([] : List IndicatorSpec) = some cache := rfl
  simp only [computeSignalsBatched, hcol, hens]
  rw [if_neg h]

/-- Witness for C10: the unknown family name "bogus" with two unit configs
and three bars yields 2 x 3 all-false matrices and the untouched cache. -/
theorem unknown_strategy_all_false_witness :
    "bogus" ∉ knownStrategyTypes ∧
    computeSignalsBatched (fun _ _ => ([] : List IndicatorSpec))
        (fun _ _ _ => (([], []) : List (List Bool) × List (List Bool)))
        "bogus" [(), ()] cacheInit 3
      = some (cacheInit,
        (List.replicate 2 (List.replicate 3 false),
         List.replicate 2 (List.replicate 3 false))) :=
  ⟨by decide, unknown_strategy_all_false _ _ _ _ _ _ (by decide)⟩

end TrendLab
